import Mathlib

/-
Verification of the CoE5 cost-mod generator scripts
(scripts/generate_cost_mod.py and scripts/generate_tiered_cost_mod.py).

The scripts are shallowly embedded: a file is a list of lines (strings
without newline characters, as produced by Python line iteration), Python
dicts are insertion-ordered association lists, Python integers are Nat,
and the exact rational ceiling stands in for math.ceil on the exact
quotient.  Text is modelled over ASCII, matching the data files the
scripts consume.
-/

namespace OBM

/-! ### Character utilities -/

/-- Python whitespace characters (ASCII subset), as matched by a regex
backslash-s item. -/
def isPySpace (c : Char) : Bool :=
  c = ' ' || c = '\t' || c = '\n' || c = '\r' || c = '\x0b' || c = '\x0c'

/-- ASCII decimal digit test, as matched by a regex backslash-d item. -/
def isDigitCh (c : Char) : Bool :=
  decide (48 ≤ c.toNat) && decide (c.toNat ≤ 57)

/-- Numeric value of a digit character. -/
def digitVal (c : Char) : Nat := c.toNat - 48

/-- The decimal digit character for a value below ten. -/
def digitChar (d : Nat) : Char :=
  match d with
  | 0 => '0' | 1 => '1' | 2 => '2' | 3 => '3' | 4 => '4'
  | 5 => '5' | 6 => '6' | 7 => '7' | 8 => '8' | _ => '9'

/-- Fuel-driven accumulator loop producing decimal digits, most
significant first. -/
def natDigitsAux : Nat → Nat → List Char → List Char
  | 0, _, acc => acc
  | fuel + 1, n, acc =>
    if n < 10 then digitChar n :: acc
    else natDigitsAux fuel (n / 10) (digitChar (n % 10) :: acc)

/-- Decimal digit list of a natural number, most significant first;
models Python str() of a nonnegative int. -/
def natDigits (n : Nat) : List Char := natDigitsAux (n + 1) n []

/-- Decimal rendering of a natural number, models Python str(n). -/
def natToString (n : Nat) : String := String.mk (natDigits n)

/-- Everything before the first hash character: models
line.split(&quot;#&quot;)[0] on a single line. -/
def stripComment (cs : List Char) : List Char :=
  cs.takeWhile (fun c => c ≠ '#')

/-- Everything after the first hash character: models
line.split(&quot;#&quot;, 1)[1] when a hash is present. -/
def commentAfterHash (cs : List Char) : List Char :=
  (cs.dropWhile (fun c => c ≠ '#')).drop 1

/-- Remove trailing Python whitespace. -/
def pyStripRight (cs : List Char) : List Char :=
  (cs.reverse.dropWhile isPySpace).reverse

/-- Remove leading and trailing Python whitespace: models str.strip(). -/
def pyStrip (cs : List Char) : List Char :=
  pyStripRight (cs.dropWhile isPySpace)

/-! ### Regex-fragment matchers

Each of the regexes used by the scripts is anchored at the start of the
line (re.match) and built from literal text, one-or-more whitespace,
one-or-more digits, and a quoted-name group; the matchers below follow
the greedy semantics of those fragments. -/

/-- Match a literal character sequence at the head, returning the rest. -/
def dropLit : List Char → List Char → Option (List Char)
  | [], cs => some cs
  | _ :: _, [] => none
  | l :: ls, c :: cs => if c = l then dropLit ls cs else none

/-- Match one-or-more whitespace characters (greedy). -/
def spaces1 : List Char → Option (List Char)
  | [] => none
  | c :: cs => if isPySpace c then some (cs.dropWhile isPySpace) else none

/-- Greedily accumulate decimal digits. -/
def digitsAux : Nat → List Char → Nat × List Char
  | acc, [] => (acc, [])
  | acc, c :: cs =>
    if isDigitCh c then digitsAux (acc * 10 + digitVal c) cs else (acc, c :: cs)

/-- Match one-or-more decimal digits (greedy), returning their value. -/
def digits1 : List Char → Option (Nat × List Char)
  | [] => none
  | c :: cs => if isDigitCh c then some (digitsAux 0 (c :: cs)) else none

/-- Match a double-quoted nonempty name with no inner quote, returning
the name characters; trailing input is ignored as under re.match.  The
closing-quote check asks whether the first character failing the
name-character test is a quote. -/
def matchQuoted (cs : List Char) : Option (List Char) :=
  match cs with
  | [] => none
  | c :: rest =>
    if c = '"' then
      if (rest.dropWhile (fun ch => ch ≠ '"')).head? = some '"' then
        if rest.takeWhile (fun ch => ch ≠ '"') = [] then none
        else some (rest.takeWhile (fun ch => ch ≠ '"'))
      else none
    else none

/-! ### Python dicts as insertion-ordered association lists -/

/-- A Python dict: insertion-ordered key/value pairs, keys unique. -/
abbrev Dict (α β : Type) : Type := List (α × β)

/-- The keys of a dict, in insertion order. -/
def dkeys {α β : Type} (m : Dict α β) : List α := m.map Prod.fst

/-- Dict lookup: models m[k] / m.get(k). -/
def dget {α β : Type} [DecidableEq α] (m : Dict α β) (k : α) : Option β :=
  match m with
  | [] => none
  | p :: rest => if p.1 = k then some p.2 else dget rest k

/-- Dict assignment m[k] = v: replaces the value in place when the key
is present, appends otherwise (Python insertion-order semantics). -/
def dinsert {α β : Type} [DecidableEq α] (m : Dict α β) (k : α) (v : β) :
    Dict α β :=
  match m with
  | [] => [(k, v)]
  | p :: rest => if p.1 = k then (k, v) :: rest else p :: dinsert rest k v

/-! ### Data model

Records as built by the parsers: rituals with nested cost lines
(and, for the tiered script, ritual power and level), monsters with
nested spawn-trait lines. -/

/-- One cost line of a ritual: resource-type id and amount. -/
structure Cost where
  rtype : Nat
  amount : Nat
deriving DecidableEq

/-- A ritual as parsed by scripts/generate_cost_mod.py. -/
structure FlatRitual where
  name : String
  costs : List Cost
deriving DecidableEq

/-- A ritual as parsed by scripts/generate_tiered_cost_mod.py. -/
structure TRitual where
  name : String
  costs : List Cost
  ritpow : Option Nat
  ritpow_name : Option String
  level : Option Nat
deriving DecidableEq

/-- One spawn-trait line of a monster. -/
structure Spawn where
  trait : String
  value : Nat
  comment : String
deriving DecidableEq

/-- A monster as parsed by parse_monster_data. -/
structure Monster where
  name : String
  spawns : List Spawn
deriving DecidableEq

/-! ### Line matchers used by the parsers -/

/-- re.match of a record-start keyword followed by a quoted name
(the regexes newritual/newmonster/selectritual + quoted group). -/
def startMatch (kw : String) (cs : List Char) : Option String :=
  match dropLit kw.data cs with
  | some rest =>
    match spaces1 rest with
    | some rest2 => (matchQuoted rest2).map String.mk
    | none => none
  | none => none

/-- re.match(r'cost...two integer groups', cs). -/
def costMatch (cs : List Char) : Option (Nat × Nat) :=
  match dropLit "cost".data cs with
  | some rest =>
    match spaces1 rest with
    | some rest2 =>
      match digits1 rest2 with
      | some (t, rest3) =>
        match spaces1 rest3 with
        | some rest4 =>
          match digits1 rest4 with
          | some (a, _) => some (t, a)
          | none => none
        | none => none
      | none => none
    | none => none
  | none => none

/-- re.match(r'level...one integer group', cs). -/
def levelMatch (cs : List Char) : Option Nat :=
  match dropLit "level".data cs with
  | some rest =>
    match spaces1 rest with
    | some rest2 => (digits1 rest2).map Prod.fst
    | none => none
  | none => none

/-- The hash-comment tail of the ritpow regex: a hash, one-or-more
whitespace, then a nonempty captured group, which is stripped.  When the
remainder after the whitespace run is empty the greedy whitespace item
backtracks by one character, so a run of length at least two still
matches with a capture that strips to the empty string. -/
def hashName (cs : List Char) : Option String :=
  match cs with
  | '#' :: rest =>
    let w := rest.takeWhile isPySpace
    let rem := rest.dropWhile isPySpace
    if w = [] then none
    else if rem ≠ [] then some (String.mk (pyStripRight rem))
    else if 2 ≤ w.length then some ""
    else none
  | _ => none

/-- re.match(r'ritpow...integer group, hash, name group', cs). -/
def ritpowMatch (cs : List Char) : Option (Nat × String) :=
  match dropLit "ritpow".data cs with
  | some rest =>
    match spaces1 rest with
    | some rest2 =>
      match digits1 rest2 with
      | some (n, rest3) =>
        match spaces1 rest3 with
        | some rest4 => (hashName rest4).map (fun nm => (n, nm))
        | none => none
      | none => none
    | none => none
  | none => none

/-! ### The flat parser (generate_cost_mod.py, parse_ritual_data)

The loop strips comments and surrounding whitespace from each line,
starts a new record on a newritual line (appending the previous record
only when it has at least one cost), records cost lines inside a record,
and finalizes the last record at the end of input with the same
drop-if-empty rule.  The record-start keyword is a parameter so that the
same loop can be re-run on generated output, whose record-start lines
use the selectritual keyword. -/

/-- State of the flat parsing loop. -/
structure FPState where
  rituals : List FlatRitual
  current : Option FlatRitual

/-- Append the in-progress record if it exists and has costs. -/
def fpFinalize (st : FPState) : List FlatRitual :=
  match st.current with
  | some cur => if cur.costs ≠ [] then st.rituals ++ [cur] else st.rituals
  | none => st.rituals

/-- One line of the flat parsing loop (the stripped line is used both
for the record-start match and for the cost match). -/
def fpStep (kw : String) (st : FPState) (line : String) : FPState :=
  match startMatch kw (pyStrip (stripComment line.data)) with
  | some nm => { rituals := fpFinalize st, current := some ⟨nm, []⟩ }
  | none =>
    match st.current with
    | none => st
    | some cur =>
      match costMatch (pyStrip (stripComment line.data)) with
      | some (t, a) =>
        { st with current := some { cur with costs := cur.costs ++ [⟨t, a⟩] } }
      | none => st

/-- The flat parsing loop over a list of lines, with a parameterized
record-start keyword. -/
def parseWith (kw : String) (lines : List String) : List FlatRitual :=
  fpFinalize (lines.foldl (fpStep kw) ⟨[], none⟩)

/-- parse_ritual_data of generate_cost_mod.py. -/
def flatParse (lines : List String) : List FlatRitual :=
  parseWith "newritual" lines

/-- The flat parser re-keyed to the record-start keyword that the
emitter actually writes. -/
def selParse (lines : List String) : List FlatRitual :=
  parseWith "selectritual" lines

/-! ### The tiered parser (generate_tiered_cost_mod.py, parse_ritual_data)

Differences from the flat parser, kept faithfully: the newritual and
ritpow regexes run on the raw line (no comment stripping, no strip),
while the level and cost regexes run on the comment-stripped but
unstripped line; a ritpow line records the id and stripped comment name
on the record and assigns into the ritpow_names dict. -/

/-- State of the tiered parsing loop. -/
structure TPState where
  rituals : List TRitual
  current : Option TRitual
  table : Dict Nat String

/-- Append the in-progress record if it exists and has costs. -/
def tpFinalize (st : TPState) : List TRitual :=
  match st.current with
  | some cur => if cur.costs ≠ [] then st.rituals ++ [cur] else st.rituals
  | none => st.rituals

/-- One line of the tiered parsing loop. -/
def tpStep (st : TPState) (line : String) : TPState :=
  match startMatch "newritual" line.data with
  | some nm =>
    { rituals := tpFinalize st,
      current := some ⟨nm, [], none, none, none⟩,
      table := st.table }
  | none =>
    match st.current with
    | none => st
    | some cur =>
      match ritpowMatch line.data with
      | some (num, nm) =>
        { st with
          current := some { cur with ritpow := some num, ritpow_name := some nm },
          table := dinsert st.table num nm }
      | none =>
        match levelMatch (stripComment line.data) with
        | some lv => { st with current := some { cur with level := some lv } }
        | none =>
          match costMatch (stripComment line.data) with
          | some (t, a) =>
            { st with current := some { cur with costs := cur.costs ++ [⟨t, a⟩] } }
          | none => st

/-- parse_ritual_data of generate_tiered_cost_mod.py: the ritual list
and the ritpow_names dict. -/
def tieredParse (lines : List String) : List TRitual × Dict Nat String :=
  let st := lines.foldl tpStep ⟨[], none, []⟩
  (tpFinalize st, st.table)

/-! ### The monster parser (generate_tiered_cost_mod.py, parse_monster_data) -/

/-- The spawn traits recognized by the monster parser, in the order the
loop tries them (the first match wins). -/
def SPAWN_TRAITS : List String :=
  ["spawnmon", "spawn1d6mon", "satyrspawn", "harpyspawn", "centspawn",
   "minospawn", "motherspawn"]

/-- re.match of one trait keyword followed by an integer group. -/
def traitMatch (t : String) (cs : List Char) : Option Nat :=
  match dropLit t.data cs with
  | some rest =>
    match spaces1 rest with
    | some rest2 => (digits1 rest2).map Prod.fst
    | none => none
  | none => none

/-- Try the spawn traits in order on the comment-stripped line. -/
def findTrait (cs : List Char) : Option (String × Nat) :=
  SPAWN_TRAITS.findSome? (fun t => (traitMatch t cs).map (fun v => (t, v)))

/-- State of the monster parsing loop. -/
structure MPState where
  monsters : List Monster
  current : Option Monster

/-- Append the in-progress monster if it exists and has spawns. -/
def mpFinalize (st : MPState) : List Monster :=
  match st.current with
  | some cur => if cur.spawns ≠ [] then st.monsters ++ [cur] else st.monsters
  | none => st.monsters

/-- One line of the monster parsing loop. -/
def mpStep (st : MPState) (line : String) : MPState :=
  match startMatch "newmonster" line.data with
  | some nm => { monsters := mpFinalize st, current := some ⟨nm, []⟩ }
  | none =>
    match st.current with
    | none => st
    | some cur =>
      match findTrait (stripComment line.data) with
      | some (t, v) =>
        { st with current := some { cur with spawns := cur.spawns ++
            [⟨t, v,
              if line.data.contains '#' then
                String.mk (pyStrip (commentAfterHash line.data))
              else ""⟩] } }
      | none => st

/-- parse_monster_data of generate_tiered_cost_mod.py. -/
def parseMonsterData (lines : List String) : List Monster :=
  mpFinalize (lines.foldl mpStep ⟨[], none⟩)

/-! ### Scaling rule and resource names -/

/-- The scaling applied to every emitted value, in all three emission
sites: the ceiling of value times percentage over one hundred (exact
arithmetic), then a clamp to a minimum of one. -/
def scaleAmount (amount pct : Nat) : Nat :=
  max 1 ((amount * pct + 99) / 100)

/-- RESOURCE_TYPES, the static resource-name table of both scripts. -/
def RESOURCE_TYPES : Dict Nat String :=
  [(0, "Gold"), (1, "Iron"), (2, "Herbs"), (3, "Fungus"), (4, "Sacrifices"),
   (5, "Hands"), (6, "Blood"), (7, "Prisoners"), (8, "Unburied"), (9, "Coins"),
   (10, "Silk"), (11, "Relics"), (12, "Gems"), (13, "Monster Parts"),
   (14, "Corpses (humanoid)"), (15, "Gems"), (16, "Entrails"), (17, "Corpses"),
   (18, "Hearts"), (19, "Skulls")]

/-- RESOURCE_TYPES.get with the fallback used by both scripts. -/
def resourceName (t : Nat) : String :=
  match dget RESOURCE_TYPES t with
  | some nm => nm
  | none => "Resource " ++ natToString t

/-! ### The flat emitter (generate_cost_mod.py, generate_mod_file)

The output file is modelled as its list of lines; every write of the
script ends with a newline, and chunk-internal newlines delimit lines. -/

/-- One emitted cost line, shared verbatim by both scripts. -/
def costLine (pct : Nat) (c : Cost) : String :=
  "cost " ++ natToString c.rtype ++ " " ++ natToString (scaleAmount c.amount pct)
    ++ "  # " ++ natToString (scaleAmount c.amount pct) ++ " "
    ++ resourceName c.rtype ++ " (was " ++ natToString c.amount ++ ")"

/-- The record-selection line written by the emitters. -/
def selLine (nm : String) : String := "selectritual \"" ++ nm ++ "\""

/-- The header comment block of the flat emitter (the trailing empty
line comes from the blank line ending the header chunk). -/
def flatHeader (pct count : Nat) : List String :=
  ["# OBM Ritual Cost Modifier",
   "# ",
   "# This mod adjusts all ritual costs to " ++ natToString pct
     ++ "% of their original values.",
   "# Generated from Ritual Data v5.33.c5m",
   "# ",
   "# Total rituals modified: " ++ natToString count,
   "# ",
   ""]

/-- The lines one ritual contributes in the flat emitter: a selection
line, one cost line per cost, and a blank line. -/
def flatBlock (pct : Nat) (r : FlatRitual) : List String :=
  selLine r.name :: r.costs.map (costLine pct) ++ [""]

/-- All lines of the flat emitter's output file. -/
def flatLines (rituals : List FlatRitual) (pct : Nat) : List String :=
  flatHeader pct rituals.length ++ rituals.foldr (fun r acc => flatBlock pct r ++ acc) []

/-- generate_mod_file of generate_cost_mod.py: the output lines and the
returned count. -/
def flatGen (rituals : List FlatRitual) (pct : Nat) : List String × Nat :=
  (flatLines rituals pct, rituals.length)

/-! ### Configuration and percentage resolution
(generate_tiered_cost_mod.py, process_config and generate_mod_file) -/

/-- The recognized keys of the JSON configuration document; an Option
field models presence of the key. -/
structure Config where
  defaultPct : Option Nat
  ritpow_modifiers : Option (Dict String Nat)
  tiers : Option (Dict String Nat)
  class_tiers : Option (Dict String String)
  level_modifiers : Dict String Nat
  spawn_modifier : Option Nat

/-- process_config: under the tier form (both the tiers key and the
class_tiers key present), build the name-to-id reverse lookup from the
ritpow_names dict and convert class_tiers into a ritpow_modifiers dict;
otherwise return the flat form's default and ritpow_modifiers. -/
def process_config (cfg : Config) (ritpow_names : Dict Nat String) :
    Nat × Dict String Nat :=
  match cfg.tiers, cfg.class_tiers with
  | some tiers, some class_tiers =>
    let name_to_id : Dict String String :=
      ritpow_names.foldl (fun acc p => dinsert acc p.2 (natToString p.1)) []
    let mods : Dict String Nat :=
      class_tiers.foldl (fun acc p =>
        match dget name_to_id p.1 with
        | some ritpow_id =>
          dinsert acc ritpow_id ((dget tiers p.2).getD 100)
        | none => acc) []
    (100, mods)
  | _, _ =>
    (cfg.defaultPct.getD 100, cfg.ritpow_modifiers.getD [])

/-- The class percentage of a ritual: its ritpow id looked up (as a
decimal string) in the ritpow_modifiers dict, falling back to the
default percentage. -/
def classPct (default_pct : Nat) (mods : Dict String Nat) (r : TRitual) : Nat :=
  match r.ritpow with
  | some rp =>
    match dget mods (natToString rp) with
    | some v => v
    | none => default_pct
  | none => default_pct

/-- The level percentage of a ritual: its level looked up (as a decimal
string) in the level_modifiers dict, falling back to one hundred. -/
def levelPct (lmods : Dict String Nat) (r : TRitual) : Nat :=
  match r.level with
  | some lv =>
    match dget lmods (natToString lv) with
    | some v => v
    | none => 100
  | none => 100

/-- The effective percentage of a ritual: class and level percentages
multiplied, floor-divided by one hundred. -/
def effPct (default_pct : Nat) (mods : Dict String Nat)
    (lmods : Dict String Nat) (r : TRitual) : Nat :=
  classPct default_pct mods r * levelPct lmods r / 100

/-! ### The tiered emitter body
(generate_tiered_cost_mod.py, generate_mod_file lines 256-304) -/

/-- The display name used in a section-break comment: the record's
ritpow_name unless it is missing or empty (Python or-fallback). -/
def dispName (r : TRitual) : String :=
  match r.ritpow_name with
  | some nm => if nm = "" then unknownName r.ritpow else nm
  | none => unknownName r.ritpow
where
  unknownName : Option Nat → String
    | some n => "Unknown (" ++ natToString n ++ ")"
    | none => "Unknown (None)"

/-- The section-break comment line naming a category and percentage. -/
def sectionBreak (r : TRitual) (pct : Nat) : String :=
  "# --- " ++ dispName r ++ " (" ++ natToString pct ++ "%) ---"

/-- The lines one emitted (non-skipped) ritual contributes: a section
break when its ritpow differs from the tracked one, then the selection
line, the re-scaled cost lines, and a blank line. -/
def tieredRecLines (pct : Nat) (cur : Option Nat) (r : TRitual) : List String :=
  (if r.ritpow ≠ cur then ["", sectionBreak r pct, ""] else [])
    ++ selLine r.name :: r.costs.map (costLine pct) ++ [""]

/-- State of the tiered emission loop. -/
structure TEState where
  current : Option Nat
  lines : List String
  modified : Nat
  skipped : Nat
deriving DecidableEq

/-- One ritual of the tiered emission loop: resolve the effective
percentage, skip at exactly one hundred, otherwise emit and update the
tracked ritpow. -/
def tieredStep (default_pct : Nat) (mods lmods : Dict String Nat)
    (st : TEState) (r : TRitual) : TEState :=
  let pct := effPct default_pct mods lmods r
  if pct = 100 then { st with skipped := st.skipped + 1 }
  else
    { current := r.ritpow,
      lines := st.lines ++ tieredRecLines pct st.current r,
      modified := st.modified + 1,
      skipped := st.skipped }

/-- The ritual loop of generate_mod_file in the tiered script, started
from no tracked ritpow, no body lines and zero counts. -/
def tieredBody (default_pct : Nat) (mods lmods : Dict String Nat)
    (rs : List TRitual) : TEState :=
  rs.foldl (tieredStep default_pct mods lmods) ⟨none, [], 0, 0⟩

/-! ### The spawn emitter (generate_spawn_modifications) -/

/-- One emitted spawn line, preserving the original comment text. -/
def spawnLine (pct : Nat) (s : Spawn) : String :=
  if s.comment ≠ "" then
    s.trait ++ " " ++ natToString (scaleAmount s.value pct) ++ "  # was "
      ++ natToString s.value ++ "; " ++ s.comment
  else
    s.trait ++ " " ++ natToString (scaleAmount s.value pct) ++ "  # was "
      ++ natToString s.value

/-- The lines one monster contributes in the spawn pass. -/
def spawnBlock (pct : Nat) (m : Monster) : List String :=
  ("selectmonster \"" ++ m.name ++ "\"") :: m.spawns.map (spawnLine pct) ++ [""]

/-- The (id, name) pairs the tiered parser assigns into ritpow_names,
in recognition order, given whether a record is currently open. -/
def eventsFrom : Bool → List String → List (Nat × String)
  | _, [] => []
  | b, line :: rest =>
    match startMatch "newritual" line.data with
    | some _ => eventsFrom true rest
    | none =>
      if b then
        match ritpowMatch line.data with
        | some p => p :: eventsFrom b rest
        | none => eventsFrom b rest
      else eventsFrom b rest

/-- The ritpow assignments of a whole file (no record open initially). -/
def ritpowEvents (lines : List String) : List (Nat × String) :=
  eventsFrom false lines

/-- A ritual name as the parsers can produce it: nonempty, and free of
the quote and hash characters that delimit names and comments. -/
def goodName (nm : String) : Prop :=
  nm.data ≠ [] ∧ '"' ∉ nm.data ∧ '#' ∉ nm.data

/-- The scaled image of a ritual: what the flat emitter writes for it. -/
def scaleRitual (p : Nat) (r : FlatRitual) : FlatRitual :=
  ⟨r.name, r.costs.map (fun c => ⟨c.rtype, scaleAmount c.amount p⟩)⟩

/-! ### Facts about decimal rendering and digit parsing -/

theorem digitChar_isDigit (d : Nat) (h : d < 10) : isDigitCh (digitChar d) = true := by
  interval_cases d <;> decide

theorem digitVal_digitChar (d : Nat) (h : d < 10) : digitVal (digitChar d) = d := by
  interval_cases d <;> decide

theorem natDigitsAux_spec (n : Nat) : ∀ fuel acc, n < fuel →
    natDigitsAux fuel n acc = natDigits n ++ acc := by
  induction n using Nat.strong_induction_on with
  | _ n ih =>
    intro fuel acc hf
    match fuel with
    | 0 => omega
    | f + 1 =>
      by_cases h10 : n < 10
      · simp [natDigitsAux, h10, natDigits]
      · have hq : n / 10 < n := Nat.div_lt_self (by omega) (by omega)
        have hqf : n / 10 < f := by omega
        have hqn : n / 10 < n := hq
        simp only [natDigitsAux, h10, if_false]
        rw [ih (n / 10) hq f (digitChar (n % 10) :: acc) hqf]
        conv_rhs =>
          rw [natDigits]
          rw [show natDigitsAux (n + 1) n [] =
                natDigitsAux n (n / 10) [digitChar (n % 10)] by
              simp [natDigitsAux, h10]]
          rw [ih (n / 10) hq n [digitChar (n % 10)] hqn]
        simp

theorem natDigits_def (n : Nat) :
    natDigits n =
      if n < 10 then [digitChar n]
      else natDigits (n / 10) ++ [digitChar (n % 10)] := by
  by_cases h : n < 10
  · simp [natDigits, natDigitsAux, h]
  · have hq : n / 10 < n := Nat.div_lt_self (by omega) (by omega)
    rw [natDigits, show natDigitsAux (n + 1) n [] =
          natDigitsAux n (n / 10) [digitChar (n % 10)] by simp [natDigitsAux, h]]
    rw [natDigitsAux_spec (n / 10) n [digitChar (n % 10)] hq]
    simp [h]

theorem natDigits_ne_nil (n : Nat) : natDigits n ≠ [] := by
  rw [natDigits_def]; split <;> simp

theorem natDigits_digits (n : Nat) : ∀ c ∈ natDigits n, isDigitCh c = true := by
  induction n using Nat.strong_induction_on with
  | _ n ih =>
    intro c hc
    rw [natDigits_def] at hc
    by_cases h : n < 10
    · simp [h] at hc
      subst hc; exact digitChar_isDigit n h
    · have hq : n / 10 < n := Nat.div_lt_self (by omega) (by omega)
      simp [h] at hc
      rcases hc with hc | hc
      · exact ih (n / 10) hq c hc
      · subst hc; exact digitChar_isDigit _ (Nat.mod_lt _ (by omega))

theorem digitsAux_append (n : Nat) : ∀ acc rest,
    digitsAux acc (natDigits n ++ rest)
      = digitsAux (acc * 10 ^ (natDigits n).length + n) rest := by
  induction n using Nat.strong_induction_on with
  | _ n ih =>
    intro acc rest
    rw [natDigits_def]
    by_cases h : n < 10
    · simp only [h, if_true, List.cons_append, List.nil_append, digitsAux,
        digitChar_isDigit n h, if_true, digitVal_digitChar n h, List.length_cons,
        List.length_nil]
      norm_num
    · have hq : n / 10 < n := Nat.div_lt_self (by omega) (by omega)
      have hm : n % 10 < 10 := Nat.mod_lt _ (by omega)
      simp only [h, if_false]
      rw [List.append_assoc, List.cons_append, List.nil_append,
        ih (n / 10) hq acc (digitChar (n % 10) :: rest)]
      simp only [digitsAux, digitChar_isDigit _ hm, if_true, digitVal_digitChar _ hm,
        List.length_append, List.length_cons, List.length_nil]
      rw [pow_succ]
      congr 1
      generalize 10 ^ (natDigits (n / 10)).length = k
      have hdm : n / 10 * 10 + n % 10 = n := by omega
      calc (acc * k + n / 10) * 10 + n % 10
          = acc * (k * 10) + (n / 10 * 10 + n % 10) := by ring
        _ = acc * (k * 10) + n := by rw [hdm]

theorem digitsAux_stop (n : Nat) (rest : List Char)
    (h : ∀ c, rest.head? = some c → isDigitCh c = false) :
    digitsAux n rest = (n, rest) := by
  cases rest with
  | nil => rfl
  | cons c cs => simp [digitsAux, h c rfl]

theorem digits1_cons_digit (c : Char) (l : List Char) (hc : isDigitCh c = true) :
    digits1 (c :: l) = some (digitsAux 0 (c :: l)) := by
  simp [digits1, hc]

theorem digits1_natDigits (n : Nat) (rest : List Char)
    (h : ∀ c, rest.head? = some c → isDigitCh c = false) :
    digits1 (natDigits n ++ rest) = some (n, rest) := by
  obtain ⟨c, cs, e⟩ : ∃ c cs, natDigits n = c :: cs := by
    cases e : natDigits n with
    | nil => exact absurd e (natDigits_ne_nil n)
    | cons c cs => exact ⟨c, cs, rfl⟩
  have hc : isDigitCh c = true := by
    apply natDigits_digits n c; rw [e]; exact List.mem_cons_self c cs
  rw [e, List.cons_append, digits1_cons_digit c (cs ++ rest) hc,
    ← List.cons_append, ← e, digitsAux_append]
  simp only [Nat.zero_mul, Nat.zero_add]
  rw [digitsAux_stop n rest h]

theorem natToString_inj (m n : Nat) (h : natToString m = natToString n) : m = n := by
  have hd : natDigits m = natDigits n := congrArg String.data h
  have h1 := digits1_natDigits m [] (by intro c hc; simp at hc)
  have h2 := digits1_natDigits n [] (by intro c hc; simp at hc)
  rw [List.append_nil] at h1 h2
  rw [hd, h2] at h1
  cases h1; rfl

theorem not_space_of_digit (c : Char) (h : isDigitCh c = true) : isPySpace c = false := by
  cases hs : isPySpace c
  · rfl
  · exfalso
    simp only [isPySpace, Bool.or_eq_true, decide_eq_true_eq] at hs
    rcases hs with ((((h1 | h1) | h1) | h1) | h1) | h1 <;> subst h1 <;> revert h <;> decide

theorem digit_ne_hash (c : Char) (h : isDigitCh c = true) : c ≠ '#' := by
  intro h'; subst h'; revert h; decide

theorem digit_ne_quote (c : Char) (h : isDigitCh c = true) : c ≠ '"' := by
  intro h'; subst h'; revert h; decide

/-! ### Facts about the dict model -/

theorem dget_dinsert_self {α β : Type} [DecidableEq α] (m : Dict α β) (k : α) (v : β) :
    dget (dinsert m k v) k = some v := by
  induction m with
  | nil => simp [dinsert, dget]
  | cons p rest ih =>
    by_cases h : p.1 = k <;> simp [dinsert, dget, h, ih]

theorem dget_dinsert_ne {α β : Type} [DecidableEq α] (m : Dict α β) (k : α) (v : β)
    (j : α) (h : k ≠ j) : dget (dinsert m k v) j = dget m j := by
  induction m with
  | nil => simp [dinsert, dget, h]
  | cons p rest ih =>
    by_cases hp : p.1 = k
    · simp [dinsert, dget, hp, h]
    · simp only [dinsert, hp, if_false, dget]
      by_cases hj : p.1 = j <;> simp [hj, ih]

theorem dget_some_mem {α β : Type} [DecidableEq α] (m : Dict α β) (k : α) (v : β)
    (h : dget m k = some v) : (k, v) ∈ m := by
  induction m with
  | nil => simp [dget] at h
  | cons p rest ih =>
    by_cases hp : p.1 = k
    · simp only [dget, hp, if_true, Option.some.injEq] at h
      have he : (k, v) = p := by rw [← hp, ← h]
      rw [he]; exact List.mem_cons_self p rest
    · simp only [dget, hp, if_false] at h
      exact List.mem_cons_of_mem p (ih h)

theorem dget_eq_none_iff {α β : Type} [DecidableEq α] (m : Dict α β) (k : α) :
    dget m k = none ↔ k ∉ dkeys m := by
  induction m with
  | nil => simp [dget, dkeys]
  | cons p rest ih =>
    by_cases hp : p.1 = k
    · simp [dget, dkeys, hp, ih]
    · simp [dget, dkeys, hp, ih]
      tauto

theorem dget_of_mem_nodup {α β : Type} [DecidableEq α] (m : Dict α β) (k : α) (v : β)
    (hm : (k, v) ∈ m) (hn : (dkeys m).Nodup) : dget m k = some v := by
  induction m with
  | nil => simp at hm
  | cons p rest ih =>
    have e : dkeys (p :: rest) = p.1 :: dkeys rest := rfl
    rw [e, List.nodup_cons] at hn
    rcases List.mem_cons.mp hm with h | h
    · rw [← h]; simp [dget]
    · have hk : k ∈ dkeys rest := List.mem_map_of_mem Prod.fst h
      have hp : p.1 ≠ k := fun he => hn.1 (he ▸ hk)
      simp only [dget, hp, if_false]
      exact ih h hn.2

theorem dkeys_dinsert {α β : Type} [DecidableEq α] (m : Dict α β) (k : α) (v : β) :
    dkeys (dinsert m k v) = if k ∈ dkeys m then dkeys m else dkeys m ++ [k] := by
  induction m with
  | nil => simp [dinsert, dkeys]
  | cons p rest ih =>
    by_cases hp : p.1 = k
    · simp [dinsert, dkeys, hp]
    · simp only [dinsert, hp, if_false, dkeys, List.map_cons] at ih ⊢
      rw [ih]
      have hps : ¬ k = p.1 := fun he => hp he.symm
      by_cases hk : k ∈ List.map Prod.fst rest
      · simp [dkeys, hk, List.mem_cons, hps]
      · simp [dkeys, hk, List.mem_cons, hps]

theorem nodup_dkeys_dinsert {α β : Type} [DecidableEq α] (m : Dict α β) (k : α) (v : β)
    (h : (dkeys m).Nodup) : (dkeys (dinsert m k v)).Nodup := by
  rw [dkeys_dinsert]
  by_cases hk : k ∈ dkeys m
  · simpa [hk] using h
  · simp only [hk, if_false]
    simpa [List.nodup_append] using ⟨h, hk⟩

/-! ### List helpers for prefix runs -/

theorem takeWhile_append_all (p : Char → Bool) (xs ys : List Char)
    (h : ∀ x ∈ xs, p x = true) :
    (xs ++ ys).takeWhile p = xs ++ ys.takeWhile p := by
  induction xs with
  | nil => simp
  | cons x xs ih =>
    have hx := h x (List.mem_cons_self x xs)
    simp only [List.cons_append, List.takeWhile_cons, hx, if_true]
    rw [ih (fun a ha => h a (List.mem_cons_of_mem x ha))]

theorem dropWhile_append_all (p : Char → Bool) (xs ys : List Char)
    (h : ∀ x ∈ xs, p x = true) :
    (xs ++ ys).dropWhile p = ys.dropWhile p := by
  induction xs with
  | nil => simp
  | cons x xs ih =>
    have hx := h x (List.mem_cons_self x xs)
    simp only [List.cons_append, List.dropWhile_cons, hx, if_true]
    exact ih (fun a ha => h a (List.mem_cons_of_mem x ha))

theorem takeWhile_cons_neg (p : Char → Bool) (x : Char) (xs : List Char)
    (h : p x = false) : (x :: xs).takeWhile p = [] := by
  simp [List.takeWhile_cons, h]

theorem dropWhile_cons_neg (p : Char → Bool) (x : Char) (xs : List Char)
    (h : p x = false) : (x :: xs).dropWhile p = x :: xs := by
  simp [List.dropWhile_cons, h]

/-! ### The scaling formula -/

theorem ceil_div_hundred (n : Nat) : ⌈(n : ℚ) / 100⌉ = (((n + 99) / 100 : ℕ) : ℤ) := by
  have h1 : n ≤ 100 * ((n + 99) / 100) := by omega
  have h2 : 100 * ((n + 99) / 100) ≤ n + 99 := by omega
  generalize hk : (n + 99) / 100 = k at h1 h2
  have hq1 : (n : ℚ) ≤ 100 * (k : ℚ) := by exact_mod_cast h1
  have hq2 : (100 : ℚ) * (k : ℚ) ≤ (n : ℚ) + 99 := by exact_mod_cast h2
  have hcast : (((k : ℤ)) : ℚ) = (k : ℚ) := by push_cast; rfl
  rw [Int.ceil_eq_iff]
  constructor
  · rw [lt_div_iff₀ (by norm_num : (0 : ℚ) < 100), hcast]
    linarith
  · rw [div_le_iff₀ (by norm_num : (0 : ℚ) < 100), hcast]
    linarith

/-- C1: for original at least one and positive percentage, the emitted
value is the clamped exact ceiling; at one hundred percent the value is
unchanged; an original value of one never becomes zero below one
hundred percent. -/
theorem claim_C1 (a p : Nat) (ha : 1 ≤ a) (hp : 0 < p) :
    ((scaleAmount a p : ℤ) = max 1 ⌈((a : ℚ) * p) / 100⌉)
    ∧ (p = 100 → scaleAmount a p = a)
    ∧ (p < 100 → scaleAmount 1 p = 1) := by
  refine ⟨?_, ?_, ?_⟩
  · have h := ceil_div_hundred (a * p)
    push_cast at h
    rw [scaleAmount, Nat.cast_max]
    rw [h]
    push_cast
    rfl
  · rintro rfl
    rw [scaleAmount]
    omega
  · intro h
    rw [scaleAmount]
    omega

theorem claim_C1_wit :
    (1 ≤ 7 ∧ 0 < 50)
    ∧ (((scaleAmount 7 50 : ℤ) = max 1 ⌈((7 : ℚ) * 50) / 100⌉)
      ∧ (50 = 100 → scaleAmount 7 50 = 7)
      ∧ (50 < 100 → scaleAmount 1 50 = 1)) :=
  ⟨⟨by decide, by decide⟩, claim_C1 7 50 (by decide) (by decide)⟩

/-- C9: the flat generator is a pure function of the ritual list and
percentage, so two runs on equal inputs produce byte-identical output
lines and counts. -/
theorem claim_C9 (rs₁ rs₂ : List FlatRitual) (p₁ p₂ : Nat)
    (hr : rs₁ = rs₂) (hp : p₁ = p₂) : flatGen rs₁ p₁ = flatGen rs₂ p₂ := by
  rw [hr, hp]

theorem claim_C9_wit :
    flatGen [⟨"Test", [⟨0, 100⟩]⟩] 50 = flatGen [⟨"Test", [⟨0, 100⟩]⟩] 50 :=
  claim_C9 [⟨"Test", [⟨0, 100⟩]⟩] [⟨"Test", [⟨0, 100⟩]⟩] 50 50 rfl rfl

/-- C2: the effective percentage is the floor of category percentage
times level percentage over one hundred, the level percentage read from
level_modifiers when the level is a key and one hundred otherwise; and
the end-to-end example: a fifty percent category modifier with an eighty
percent level-five modifier on a level-five ritual of cost ten gives
effective percentage forty and new cost four. -/
theorem claim_C2 :
    (∀ (d : Nat) (mods lmods : Dict String Nat) (r : TRitual),
      effPct d mods lmods r
        = classPct d mods r *
            (match r.level with
             | some lv => (dget lmods (natToString lv)).getD 100
             | none => 100) / 100)
    ∧ effPct 100 [("3", 50)] [("5", 80)]
        ⟨"R", [⟨0, 10⟩], some 3, some "Lore", some 5⟩ = (50 * 80) / 100
    ∧ (50 * 80) / 100 = 40
    ∧ scaleAmount 10 40 = 4
    ∧ costLine 40 ⟨0, 10⟩ = "cost 0 4  # 4 Gold (was 10)" := by
  refine ⟨?_, by decide, by decide, by decide, by decide⟩
  intro d mods lmods r
  rw [effPct, levelPct]
  cases r.level with
  | none => rfl
  | some lv => cases h : dget lmods (natToString lv) <;> simp [h]

/-! ### The tiered emission loop: skipping, counts, section breaks -/

theorem tieredStep_skip (d : Nat) (mods lmods : Dict String Nat) (st : TEState)
    (r : TRitual) (h : effPct d mods lmods r = 100) :
    tieredStep d mods lmods st r = { st with skipped := st.skipped + 1 } := by
  rw [tieredStep]; simp [h]

theorem tieredStep_emit (d : Nat) (mods lmods : Dict String Nat) (st : TEState)
    (r : TRitual) (h : effPct d mods lmods r ≠ 100) :
    tieredStep d mods lmods st r =
      { current := r.ritpow,
        lines := st.lines ++ tieredRecLines (effPct d mods lmods r) st.current r,
        modified := st.modified + 1,
        skipped := st.skipped } := by
  rw [tieredStep]; simp [h]

theorem tieredFold_counts (d : Nat) (mods lmods : Dict String Nat) (rs : List TRitual) :
    ∀ st : TEState,
      ((rs.foldl (tieredStep d mods lmods) st).modified
        = st.modified + (rs.filter (fun r => !(effPct d mods lmods r == 100))).length)
      ∧ ((rs.foldl (tieredStep d mods lmods) st).skipped
        = st.skipped + (rs.filter (fun r => effPct d mods lmods r == 100)).length) := by
  induction rs with
  | nil => intro st; simp
  | cons r rs ih =>
    intro st
    rw [List.foldl_cons, List.filter_cons, List.filter_cons]
    by_cases h : effPct d mods lmods r = 100
    · rw [tieredStep_skip d mods lmods st r h]
      refine ⟨?_, ?_⟩
      · rw [(ih _).1]; simp [h]
      · rw [(ih _).2]; simp [h]; omega
    · rw [tieredStep_emit d mods lmods st r h]
      refine ⟨?_, ?_⟩
      · rw [(ih _).1]; simp [h]; omega
      · rw [(ih _).2]; simp [h]

theorem tieredFold_current (d : Nat) (mods lmods : Dict String Nat) (rs : List TRitual) :
    ∀ st : TEState,
      (rs.foldl (tieredStep d mods lmods) st).current
        = match (rs.filter (fun x => !(effPct d mods lmods x == 100))).getLast? with
          | some a => a.ritpow
          | none => st.current := by
  induction rs with
  | nil => intro st; rfl
  | cons r rs ih =>
    intro st
    rw [List.foldl_cons, List.filter_cons]
    by_cases h : effPct d mods lmods r = 100
    · rw [tieredStep_skip d mods lmods st r h, ih]
      simp [h]
    · rw [tieredStep_emit d mods lmods st r h, ih]
      have hb : (!(effPct d mods lmods r == 100)) = true := by simp [h]
      rw [if_pos hb]
      cases e : rs.filter (fun x => !(effPct d mods lmods x == 100)) with
      | nil => simp
      | cons b l =>
        rw [List.getLast?_cons_cons]
        cases e2 : (b :: l).getLast? with
        | none =>
          exact absurd (List.getLast?_eq_none_iff.mp e2) (by simp)
        | some a => rfl

/-- C3: in the tiered emitter a record is skipped exactly when its
effective percentage is one hundred: the modified and skipped counts are
the numbers of non-skipped and skipped records, and a skipped record
leaves the output lines unchanged while incrementing only the skipped
count. -/
theorem claim_C3 (d : Nat) (mods lmods : Dict String Nat) (rs : List TRitual) :
    ((tieredBody d mods lmods rs).modified
       = (rs.filter (fun r => !(effPct d mods lmods r == 100))).length)
    ∧ ((tieredBody d mods lmods rs).skipped
       = (rs.filter (fun r => effPct d mods lmods r == 100)).length)
    ∧ (∀ (st : TEState) (r : TRitual), effPct d mods lmods r = 100 →
        (tieredStep d mods lmods st r).lines = st.lines
        ∧ (tieredStep d mods lmods st r).skipped = st.skipped + 1
        ∧ (tieredStep d mods lmods st r).modified = st.modified) := by
  refine ⟨?_, ?_, ?_⟩
  · rw [tieredBody, (tieredFold_counts d mods lmods rs _).1]; simp
  · rw [tieredBody, (tieredFold_counts d mods lmods rs _).2]; simp
  · intro st r h
    rw [tieredStep_skip d mods lmods st r h]
    exact ⟨rfl, rfl, rfl⟩

theorem claim_C3_wit :
    (tieredStep 100 [] [] ⟨none, [], 0, 0⟩ ⟨"R", [], none, none, none⟩).lines
        = (⟨none, [], 0, 0⟩ : TEState).lines
    ∧ (tieredStep 100 [] [] ⟨none, [], 0, 0⟩ ⟨"R", [], none, none, none⟩).skipped
        = (⟨none, [], 0, 0⟩ : TEState).skipped + 1
    ∧ (tieredStep 100 [] [] ⟨none, [], 0, 0⟩ ⟨"R", [], none, none, none⟩).modified
        = (⟨none, [], 0, 0⟩ : TEState).modified :=
  (claim_C3 100 [] [] []).2.2 ⟨none, [], 0, 0⟩ ⟨"R", [], none, none, none⟩ (by decide)

/-! ### Heads of emitted lines, for section-break membership -/

theorem string_ne_of_head (s t : String) (h : s.data.head? ≠ t.data.head?) : s ≠ t :=
  fun he => h (by rw [he])

theorem sectionBreak_head (r : TRitual) (pct : Nat) :
    (sectionBreak r pct).data.head? = some '#' := by
  have e : "# --- ".data = '#' :: " --- ".data := rfl
  simp [sectionBreak, String.data_append, e]

theorem selLine_head (nm : String) : (selLine nm).data.head? = some 's' := by
  have e : "selectritual \"".data = 's' :: "electritual \"".data := rfl
  simp [selLine, String.data_append, e]

theorem costLine_head (pct : Nat) (c : Cost) : (costLine pct c).data.head? = some 'c' := by
  have e : "cost ".data = 'c' :: "ost ".data := rfl
  simp [costLine, String.data_append, e]

theorem sectionBreak_not_mem_block (r : TRitual) (pct pct' : Nat) (nm : String)
    (cs : List Cost) :
    sectionBreak r pct ∉ selLine nm :: cs.map (costLine pct') ++ [""] := by
  intro hmem
  rcases List.mem_cons.mp hmem with h | h
  · exact string_ne_of_head (sectionBreak r pct) (selLine nm)
      (by rw [sectionBreak_head, selLine_head]; decide) h
  · rcases List.mem_append.mp h with h | h
    · rcases List.mem_map.mp h with ⟨c, _, hc⟩
      exact string_ne_of_head (costLine pct' c) (sectionBreak r pct)
        (by rw [sectionBreak_head, costLine_head]; decide) hc
    · have he : sectionBreak r pct = "" := List.mem_singleton.mp h
      exact string_ne_of_head (sectionBreak r pct) ""
        (by rw [sectionBreak_head]; decide) he

theorem sectionBreak_mem_recLines (pct : Nat) (cur : Option Nat) (r : TRitual) :
    sectionBreak r pct ∈ tieredRecLines pct cur r ↔ r.ritpow ≠ cur := by
  by_cases h : r.ritpow = cur
  · have e : tieredRecLines pct cur r
        = selLine r.name :: r.costs.map (costLine pct) ++ [""] := by
      simp [tieredRecLines, h]
    rw [e]
    constructor
    · intro hmem; exact absurd hmem (sectionBreak_not_mem_block r pct pct r.name r.costs)
    · intro hne; exact absurd h hne
  · have e : tieredRecLines pct cur r
        = ["", sectionBreak r pct, ""]
            ++ (selLine r.name :: r.costs.map (costLine pct) ++ [""]) := by
      simp [tieredRecLines, h]
    rw [e]
    constructor
    · intro _; exact h
    · intro _
      exact List.mem_append.mpr (Or.inl (List.mem_cons_of_mem _ (List.mem_cons_self _ _)))

/-- C7: the tracked category of the tiered emitter equals the ritpow of
the last emitted (non-skipped) ritual (none before any emission); an
emitted ritual gets a section-break comment exactly when its ritpow
differs from that tracked value and then updates it, while a skipped
ritual leaves the tracked value unchanged. -/
theorem claim_C7 (d : Nat) (mods lmods : Dict String Nat) (rs : List TRitual)
    (r : TRitual) :
    ((tieredBody d mods lmods rs).current
        = match (rs.filter (fun x => !(effPct d mods lmods x == 100))).getLast? with
          | some a => a.ritpow
          | none => none)
    ∧ (effPct d mods lmods r ≠ 100 →
        ((sectionBreak r (effPct d mods lmods r)
            ∈ tieredRecLines (effPct d mods lmods r) (tieredBody d mods lmods rs).current r)
          ↔ r.ritpow ≠ (tieredBody d mods lmods rs).current)
        ∧ (tieredStep d mods lmods (tieredBody d mods lmods rs) r).current = r.ritpow)
    ∧ (effPct d mods lmods r = 100 →
        (tieredStep d mods lmods (tieredBody d mods lmods rs) r).current
          = (tieredBody d mods lmods rs).current) := by
  refine ⟨?_, ?_, ?_⟩
  · rw [tieredBody, tieredFold_current d mods lmods rs _]
  · intro h
    refine ⟨sectionBreak_mem_recLines _ _ r, ?_⟩
    rw [tieredStep_emit d mods lmods _ r h]
  · intro h
    rw [tieredStep_skip d mods lmods _ r h]

theorem claim_C7_wit :
    ((sectionBreak ⟨"R", [⟨0, 10⟩], some 3, some "L", none⟩
          (effPct 50 [] [] ⟨"R", [⟨0, 10⟩], some 3, some "L", none⟩)
        ∈ tieredRecLines (effPct 50 [] [] ⟨"R", [⟨0, 10⟩], some 3, some "L", none⟩)
            (tieredBody 50 [] [] []).current ⟨"R", [⟨0, 10⟩], some 3, some "L", none⟩)
      ↔ (⟨"R", [⟨0, 10⟩], some 3, some "L", none⟩ : TRitual).ritpow
          ≠ (tieredBody 50 [] [] []).current)
    ∧ (tieredStep 50 [] [] (tieredBody 50 [] [] [])
          ⟨"R", [⟨0, 10⟩], some 3, some "L", none⟩).current
        = (⟨"R", [⟨0, 10⟩], some 3, some "L", none⟩ : TRitual).ritpow :=
  (claim_C7 50 [] [] [] ⟨"R", [⟨0, 10⟩], some 3, some "L", none⟩).2.1 (by decide)

/-! ### Every parsed record has at least one attribute (C6) -/

theorem fpFinalize_nonempty (st : FPState) (h : ∀ r ∈ st.rituals, r.costs ≠ []) :
    ∀ r ∈ fpFinalize st, r.costs ≠ [] := by
  intro r hr
  rcases hc : st.current with _ | cur
  · simp only [fpFinalize, hc] at hr
    exact h r hr
  · simp only [fpFinalize, hc] at hr
    by_cases he : cur.costs = []
    · simp [he] at hr
      exact h r hr
    · simp [he] at hr
      rcases hr with h1 | h1
      · exact h r h1
      · rw [h1]; exact he

theorem fpStep_rituals (kw : String) (st : FPState) (line : String) :
    (fpStep kw st line).rituals = st.rituals
    ∨ (fpStep kw st line).rituals = fpFinalize st := by
  rw [fpStep]
  cases startMatch kw (pyStrip (stripComment line.data)) with
  | some nm => right; rfl
  | none =>
    cases st.current with
    | none => left; rfl
    | some cur =>
      cases costMatch (pyStrip (stripComment line.data)) with
      | some p => left; rfl
      | none => left; rfl

theorem fpLoop_inv (kw : String) (lines : List String) :
    ∀ st : FPState, (∀ r ∈ st.rituals, r.costs ≠ []) →
      ∀ r ∈ fpFinalize (lines.foldl (fpStep kw) st), r.costs ≠ [] := by
  induction lines with
  | nil => intro st h; exact fpFinalize_nonempty st h
  | cons line rest ih =>
    intro st h
    rw [List.foldl_cons]
    apply ih
    rcases fpStep_rituals kw st line with e | e
    · intro r hr; rw [e] at hr; exact h r hr
    · intro r hr; rw [e] at hr; exact fpFinalize_nonempty st h r hr

theorem tpFinalize_nonempty (st : TPState) (h : ∀ r ∈ st.rituals, r.costs ≠ []) :
    ∀ r ∈ tpFinalize st, r.costs ≠ [] := by
  intro r hr
  rcases hc : st.current with _ | cur
  · simp only [tpFinalize, hc] at hr
    exact h r hr
  · simp only [tpFinalize, hc] at hr
    by_cases he : cur.costs = []
    · simp [he] at hr
      exact h r hr
    · simp [he] at hr
      rcases hr with h1 | h1
      · exact h r h1
      · rw [h1]; exact he

theorem tpStep_rituals (st : TPState) (line : String) :
    (tpStep st line).rituals = st.rituals
    ∨ (tpStep st line).rituals = tpFinalize st := by
  rw [tpStep]
  cases startMatch "newritual" line.data with
  | some nm => right; rfl
  | none =>
    cases st.current with
    | none => left; rfl
    | some cur =>
      cases ritpowMatch line.data with
      | some p => left; rfl
      | none =>
        cases levelMatch (stripComment line.data) with
        | some lv => left; rfl
        | none =>
          cases costMatch (stripComment line.data) with
          | some p => left; rfl
          | none => left; rfl

theorem tpLoop_inv (lines : List String) :
    ∀ st : TPState, (∀ r ∈ st.rituals, r.costs ≠ []) →
      ∀ r ∈ tpFinalize (lines.foldl tpStep st), r.costs ≠ [] := by
  induction lines with
  | nil => intro st h; exact tpFinalize_nonempty st h
  | cons line rest ih =>
    intro st h
    rw [List.foldl_cons]
    apply ih
    rcases tpStep_rituals st line with e | e
    · intro r hr; rw [e] at hr; exact h r hr
    · intro r hr; rw [e] at hr; exact tpFinalize_nonempty st h r hr

theorem mpFinalize_nonempty (st : MPState) (h : ∀ m ∈ st.monsters, m.spawns ≠ []) :
    ∀ m ∈ mpFinalize st, m.spawns ≠ [] := by
  intro m hm
  rcases hc : st.current with _ | cur
  · simp only [mpFinalize, hc] at hm
    exact h m hm
  · simp only [mpFinalize, hc] at hm
    by_cases he : cur.spawns = []
    · simp [he] at hm
      exact h m hm
    · simp [he] at hm
      rcases hm with h1 | h1
      · exact h m h1
      · rw [h1]; exact he

theorem mpStep_monsters (st : MPState) (line : String) :
    (mpStep st line).monsters = st.monsters
    ∨ (mpStep st line).monsters = mpFinalize st := by
  rw [mpStep]
  cases startMatch "newmonster" line.data with
  | some nm => right; rfl
  | none =>
    cases st.current with
    | none => left; rfl
    | some cur =>
      cases findTrait (stripComment line.data) with
      | some p => left; rfl
      | none => left; rfl

theorem mpLoop_inv (lines : List String) :
    ∀ st : MPState, (∀ m ∈ st.monsters, m.spawns ≠ []) →
      ∀ m ∈ mpFinalize (lines.foldl mpStep st), m.spawns ≠ [] := by
  induction lines with
  | nil => intro st h; exact mpFinalize_nonempty st h
  | cons line rest ih =>
    intro st h
    rw [List.foldl_cons]
    apply ih
    rcases mpStep_monsters st line with e | e
    · intro m hm; rw [e] at hm; exact h m hm
    · intro m hm; rw [e] at hm; exact mpFinalize_nonempty st h m hm

/-- C6: every record returned by any of the three parsers has at least
one attribute: records accumulated with zero cost or spawn lines are
dropped, both at the next record-start line and at end of input. -/
theorem claim_C6 (lines : List String) :
    (∀ r ∈ flatParse lines, r.costs ≠ [])
    ∧ (∀ r ∈ (tieredParse lines).1, r.costs ≠ [])
    ∧ (∀ m ∈ parseMonsterData lines, m.spawns ≠ []) := by
  refine ⟨?_, ?_, ?_⟩
  · exact fpLoop_inv "newritual" lines ⟨[], none⟩ (by intro r hr; simp at hr)
  · exact tpLoop_inv lines ⟨[], none, []⟩ (by intro r hr; simp at hr)
  · exact mpLoop_inv lines ⟨[], none⟩ (by intro m hm; simp at hm)

theorem claim_C6_wit :
    (⟨"Test Ritual", [⟨0, 100⟩]⟩ : FlatRitual)
        ∈ flatParse ["newritual \"Test Ritual\"", "cost 0 100"]
    ∧ (⟨"Test Ritual", [⟨0, 100⟩]⟩ : FlatRitual).costs ≠ [] :=
  ⟨by decide,
    (claim_C6 ["newritual \"Test Ritual\"", "cost 0 100"]).1
      ⟨"Test Ritual", [⟨0, 100⟩]⟩ (by decide)⟩

/-! ### The ritpow_names table as a sequence of dict assignments (C4) -/

theorem tp_table_events (lines : List String) :
    ∀ st : TPState,
      (lines.foldl tpStep st).table
        = (eventsFrom st.current.isSome lines).foldl
            (fun m p => dinsert m p.1 p.2) st.table := by
  induction lines with
  | nil => intro st; rfl
  | cons line rest ih =>
    intro st
    rw [List.foldl_cons]
    cases hm : startMatch "newritual" line.data with
    | some nm =>
      simp only [tpStep, eventsFrom, hm]
      rw [ih]
      rfl
    | none =>
      cases hc : st.current with
      | none =>
        simp only [tpStep, eventsFrom, hm, hc, Option.isSome_none, Bool.false_eq_true,
          if_false]
        rw [ih, hc]
        rfl
      | some cur =>
        cases hrp : ritpowMatch line.data with
        | some p =>
          obtain ⟨num, nm⟩ := p
          simp only [tpStep, eventsFrom, hm, hc, hrp, Option.isSome_some, if_true,
            List.foldl_cons]
          rw [ih]
          rfl
        | none =>
          cases hlv : levelMatch (stripComment line.data) with
          | some lv =>
            simp only [tpStep, eventsFrom, hm, hc, hrp, hlv, Option.isSome_some, if_true]
            rw [ih]
            rfl
          | none =>
            cases hco : costMatch (stripComment line.data) with
            | some p =>
              obtain ⟨t, a⟩ := p
              simp only [tpStep, eventsFrom, hm, hc, hrp, hlv, hco, Option.isSome_some,
                if_true]
              rw [ih]
              rfl
            | none =>
              simp only [tpStep, eventsFrom, hm, hc, hrp, hlv, hco, Option.isSome_some,
                if_true]
              rw [ih, hc]
              rfl

theorem dget_foldl_dinsert (ps : List (Nat × String)) (m : Dict Nat String) (k : Nat) :
    dget (ps.foldl (fun acc p => dinsert acc p.1 p.2) m) k
      = match (ps.filter (fun p => p.1 == k)).getLast? with
        | some p => some p.2
        | none => dget m k := by
  induction ps generalizing m with
  | nil => rfl
  | cons p ps ih =>
    rw [List.foldl_cons, ih, List.filter_cons]
    by_cases h : p.1 = k
    · have hb : (p.1 == k) = true := by simp [h]
      rw [if_pos hb]
      cases e : ps.filter (fun q => q.1 == k) with
      | nil => simp [h, dget_dinsert_self]
      | cons b l =>
        rw [List.getLast?_cons_cons]
        cases e2 : (b :: l).getLast? with
        | none => exact absurd (List.getLast?_eq_none_iff.mp e2) (by simp)
        | some q => rfl
    · have hb : (p.1 == k) = false := by simp [h]
      rw [if_neg (by simp [hb])]
      cases e : (ps.filter (fun q => q.1 == k)).getLast? with
      | none => simp [dget_dinsert_ne m p.1 p.2 k h]
      | some q => rfl

/-- C4 (amended): the Category Name Table equals the fold of the
parser's ritpow assignments under dict-assignment semantics, so each
category id maps to the display name of the LAST ritpow line seen for
that id — later occurrences overwrite the stored name. -/
theorem claim_C4 (lines : List String) :
    ((tieredParse lines).2
        = (ritpowEvents lines).foldl (fun m p => dinsert m p.1 p.2) [])
    ∧ (∀ id : Nat,
        dget (tieredParse lines).2 id
          = match ((ritpowEvents lines).filter (fun p => p.1 == id)).getLast? with
            | some p => some p.2
            | none => none) := by
  have e : (tieredParse lines).2 = (lines.foldl tpStep ⟨[], none, []⟩).table := rfl
  constructor
  · rw [e, tp_table_events lines ⟨[], none, []⟩]
    rfl
  · intro id
    rw [e, tp_table_events lines ⟨[], none, []⟩]
    have e2 := dget_foldl_dinsert (ritpowEvents lines) [] id
    rw [show eventsFrom (⟨[], none, []⟩ : TPState).current.isSome lines
          = ritpowEvents lines from rfl]
    rw [e2]
    cases ((ritpowEvents lines).filter (fun p => p.1 == id)).getLast? with
    | none => rfl
    | some q => rfl

theorem claim_C4_cex :
    (tieredParse ["newritual \"A\"", "ritpow 3 # NameOne", "cost 0 10",
        "newritual \"B\"", "ritpow 3 # NameTwo", "cost 0 10"]).2
      = [(3, "NameTwo")]
    ∧ ("NameTwo" : String) ≠ "NameOne" :=
  ⟨by decide, by decide⟩

/-! ### Fallback resolution of percentages (C5) -/

theorem tpStep_table (st : TPState) (line : String) :
    (tpStep st line).table = st.table
    ∨ ∃ num nm, (tpStep st line).table = dinsert st.table num nm := by
  rw [tpStep]
  cases startMatch "newritual" line.data with
  | some nm => left; rfl
  | none =>
    cases st.current with
    | none => left; rfl
    | some cur =>
      cases ritpowMatch line.data with
      | some p => right; exact ⟨p.1, p.2, rfl⟩
      | none =>
        cases levelMatch (stripComment line.data) with
        | some lv => left; rfl
        | none =>
          cases costMatch (stripComment line.data) with
          | some p => left; rfl
          | none => left; rfl

theorem tp_table_nodup (lines : List String) :
    ∀ st : TPState, (dkeys st.table).Nodup →
      (dkeys (lines.foldl tpStep st).table).Nodup := by
  induction lines with
  | nil => intro st h; exact h
  | cons line rest ih =>
    intro st h
    rw [List.foldl_cons]
    apply ih
    rcases tpStep_table st line with e | ⟨num, nm, e⟩
    · rw [e]; exact h
    · rw [e]; exact nodup_dkeys_dinsert st.table num nm h

theorem tieredParse_table_nodup (lines : List String) :
    (dkeys (tieredParse lines).2).Nodup :=
  tp_table_nodup lines ⟨[], none, []⟩ (by simp [dkeys])

theorem name_to_id_mem (table : Dict Nat String) (c s : String) :
    ∀ acc : Dict String String,
      dget (table.foldl (fun acc p => dinsert acc p.2 (natToString p.1)) acc) c
          = some s →
      (∃ num, (num, c) ∈ table ∧ s = natToString num) ∨ dget acc c = some s := by
  induction table with
  | nil => intro acc h; right; exact h
  | cons p t ih =>
    intro acc h
    rw [List.foldl_cons] at h
    rcases ih _ h with ⟨num, hmem, hs⟩ | h2
    · left; exact ⟨num, List.mem_cons_of_mem p hmem, hs⟩
    · by_cases hc : p.2 = c
      · left
        refine ⟨p.1, ?_, ?_⟩
        · rw [show (p.1, c) = p by rw [← hc]]
          exact List.mem_cons_self p t
        · rw [hc, dget_dinsert_self acc c (natToString p.1)] at h2
          cases h2; rfl
      · right
        rwa [dget_dinsert_ne acc p.2 (natToString p.1) c hc] at h2

theorem mods_mem (cts : Dict String String) (tiers : Dict String Nat)
    (n2i : Dict String String) (k : String) (v : Nat) :
    ∀ acc : Dict String Nat,
      dget (cts.foldl (fun acc p =>
          match dget n2i p.1 with
          | some ritpow_id => dinsert acc ritpow_id ((dget tiers p.2).getD 100)
          | none => acc) acc) k = some v →
      (∃ p ∈ cts, dget n2i p.1 = some k) ∨ dget acc k = some v := by
  induction cts with
  | nil => intro acc h; right; exact h
  | cons q t ih =>
    intro acc h
    rw [List.foldl_cons] at h
    rcases ih _ h with ⟨p, hp, he⟩ | h2
    · left; exact ⟨p, List.mem_cons_of_mem q hp, he⟩
    · cases hq : dget n2i q.1 with
      | some i =>
        simp only [hq] at h2
        by_cases hik : i = k
        · left
          exact ⟨q, List.mem_cons_self q t, by rw [hq, hik]⟩
        · right
          rwa [dget_dinsert_ne acc i ((dget tiers q.2).getD 100) k hik] at h2
      | none =>
        right
        simpa only [hq] using h2

/-- C5 (amended): with a flat-form configuration a record whose
category id is absent from the ritpow_modifiers map receives the
configured default percentage, itself one hundred when no default key
is present; with a tier-form configuration resolution goes by category
id through the Category Name Table, so a record whose id's final table
name has no class_tiers assignment (in particular an id absent from the
table) receives one hundred percent — the record's own stored display
name is not consulted. -/
theorem claim_C5 (cfg : Config) (r : TRitual) :
    ((cfg.tiers = none ∨ cfg.class_tiers = none) →
      ∀ table : Dict Nat String,
        (process_config cfg table
            = (cfg.defaultPct.getD 100, cfg.ritpow_modifiers.getD []))
        ∧ (∀ rp, r.ritpow = some rp →
            dget (cfg.ritpow_modifiers.getD []) (natToString rp) = none →
            classPct (process_config cfg table).1 (process_config cfg table).2 r
              = cfg.defaultPct.getD 100))
    ∧ (∀ (lines : List String) (tiers : Dict String Nat) (cts : Dict String String),
        cfg.tiers = some tiers → cfg.class_tiers = some cts →
        ∀ rp, r.ritpow = some rp →
          (∀ nm, dget (tieredParse lines).2 rp = some nm → nm ∉ dkeys cts) →
          classPct (process_config cfg (tieredParse lines).2).1
              (process_config cfg (tieredParse lines).2).2 r = 100) := by
  constructor
  · intro h table
    have e : process_config cfg table
        = (cfg.defaultPct.getD 100, cfg.ritpow_modifiers.getD []) := by
      rcases h with h | h
      · unfold process_config; rw [h]
      · cases ht : cfg.tiers with
        | none => unfold process_config; rw [ht]
        | some tiers => unfold process_config; rw [ht, h]
    refine ⟨e, ?_⟩
    intro rp hrp hnone
    rw [e, classPct, hrp]
    show (match dget (cfg.ritpow_modifiers.getD []) (natToString rp) with
          | some v => v
          | none => cfg.defaultPct.getD 100) = cfg.defaultPct.getD 100
    rw [hnone]
  · intro lines tiers cts ht hc rp hrp hnm
    have e1 : (process_config cfg (tieredParse lines).2).1 = 100 := by
      unfold process_config; rw [ht, hc]
    have e2 : (process_config cfg (tieredParse lines).2).2
        = cts.foldl (fun acc p =>
            match dget ((tieredParse lines).2.foldl
                (fun acc q => dinsert acc q.2 (natToString q.1)) []) p.1 with
            | some ritpow_id => dinsert acc ritpow_id ((dget tiers p.2).getD 100)
            | none => acc) [] := by
      unfold process_config; rw [ht, hc]
    rw [e1, e2, classPct, hrp]
    show (match dget (cts.foldl (fun acc p =>
            match dget ((tieredParse lines).2.foldl
                (fun acc q => dinsert acc q.2 (natToString q.1)) []) p.1 with
            | some ritpow_id => dinsert acc ritpow_id ((dget tiers p.2).getD 100)
            | none => acc) []) (natToString rp) with
          | some v => v
          | none => 100) = 100
    cases hm : dget (cts.foldl (fun acc p =>
            match dget ((tieredParse lines).2.foldl
                (fun acc q => dinsert acc q.2 (natToString q.1)) []) p.1 with
            | some ritpow_id => dinsert acc ritpow_id ((dget tiers p.2).getD 100)
            | none => acc) []) (natToString rp) with
    | none => rfl
    | some v =>
      exfalso
      rcases mods_mem cts tiers
          ((tieredParse lines).2.foldl (fun acc q => dinsert acc q.2 (natToString q.1)) [])
          (natToString rp) v [] hm with ⟨p, hp, he⟩ | h2
      · rcases name_to_id_mem (tieredParse lines).2 p.1 (natToString rp) [] he with
          ⟨num, hmem, hs⟩ | h3
        · have hrn : rp = num := natToString_inj _ _ hs
          subst hrn
          have hget : dget (tieredParse lines).2 rp = some p.1 :=
            dget_of_mem_nodup _ rp p.1 hmem (tieredParse_table_nodup lines)
          exact hnm p.1 hget (List.mem_map_of_mem Prod.fst hp)
        · simp [dget] at h3
      · simp [dget] at h2

theorem claim_C5_wit :
    classPct
        (process_config
          ⟨some 70, some [("9", 40)], none, none, [], none⟩ [(3, "Y")]).1
        (process_config
          ⟨some 70, some [("9", 40)], none, none, [], none⟩ [(3, "Y")]).2
        ⟨"A", [⟨0, 10⟩], some 3, some "X", none⟩
      = (some 70).getD 100 :=
  ((claim_C5 ⟨some 70, some [("9", 40)], none, none, [], none⟩
      ⟨"A", [⟨0, 10⟩], some 3, some "X", none⟩).1 (Or.inl rfl) [(3, "Y")]).2
    3 rfl (by decide)

theorem claim_C5_cex :
    ((tieredParse ["newritual \"A\"", "ritpow 3 # X", "cost 0 10",
          "newritual \"B\"", "ritpow 3 # Y", "cost 0 10"]).1.head?.map
        TRitual.ritpow_name = some (some "X"))
    ∧ ("X" ∉ dkeys [("Y", "S")])
    ∧ ((tieredParse ["newritual \"A\"", "ritpow 3 # X", "cost 0 10",
          "newritual \"B\"", "ritpow 3 # Y", "cost 0 10"]).1.head?.map
        (classPct
          (process_config ⟨none, none, some [("S", 50)], some [("Y", "S")], [], none⟩
            (tieredParse ["newritual \"A\"", "ritpow 3 # X", "cost 0 10",
              "newritual \"B\"", "ritpow 3 # Y", "cost 0 10"]).2).1
          (process_config ⟨none, none, some [("S", 50)], some [("Y", "S")], [], none⟩
            (tieredParse ["newritual \"A\"", "ritpow 3 # X", "cost 0 10",
              "newritual \"B\"", "ritpow 3 # Y", "cost 0 10"]).2).2)
        = some 50)
    ∧ (50 ≠ 100) :=
  ⟨by decide, by decide, by decide, by decide⟩

/-! ### The flat emitter has no skip rule (C10) -/

theorem mem_flatLines_of_block (rs : List FlatRitual) (p : Nat) (r : FlatRitual)
    (hr : r ∈ rs) (x : String) (hx : x ∈ flatBlock p r) : x ∈ (flatGen rs p).1 := by
  have e : (flatGen rs p).1
      = flatHeader p rs.length ++ rs.foldr (fun r acc => flatBlock p r ++ acc) [] := rfl
  rw [e]
  apply List.mem_append.mpr; right
  clear e
  induction rs with
  | nil => simp at hr
  | cons a t ih =>
    rw [List.foldr_cons]
    rcases List.mem_cons.mp hr with h | h
    · rw [← h]; exact List.mem_append.mpr (Or.inl hx)
    · exact List.mem_append.mpr (Or.inr (ih h))

/-- C10 (amended): the flat generator never skips: it returns the full
ritual count and, for every ritual in the list and every percentage
(one hundred included), the selection line and every re-scaled cost
line appear in the output, each block holding exactly one cost line per
attribute; at one hundred percent the emitted values equal the
originals whenever every original amount is at least one (an original
amount of zero is clamped up to one). -/
theorem claim_C10 (rs : List FlatRitual) (p : Nat) :
    ((flatGen rs p).2 = rs.length)
    ∧ (∀ r ∈ rs, selLine r.name ∈ (flatGen rs p).1
        ∧ ∀ c ∈ r.costs, costLine p c ∈ (flatGen rs p).1)
    ∧ (∀ r : FlatRitual, (flatBlock p r).length = r.costs.length + 2)
    ∧ (∀ r ∈ rs, (∀ c ∈ r.costs, 1 ≤ c.amount) →
        r.costs.map (fun c => scaleAmount c.amount 100) = r.costs.map Cost.amount) := by
  refine ⟨rfl, ?_, ?_, ?_⟩
  · intro r hr
    constructor
    · exact mem_flatLines_of_block rs p r hr _ (List.mem_cons_self _ _)
    · intro c hc
      apply mem_flatLines_of_block rs p r hr
      apply List.mem_cons_of_mem
      exact List.mem_append.mpr (Or.inl (List.mem_map_of_mem (costLine p) hc))
  · intro r
    simp [flatBlock]
  · intro r _ hge
    apply List.map_congr_left
    intro c hc
    have := hge c hc
    rw [scaleAmount]
    omega

theorem claim_C10_wit :
    ((flatGen [⟨"R", [⟨0, 5⟩]⟩] 100).2 = [(⟨"R", [⟨0, 5⟩]⟩ : FlatRitual)].length)
    ∧ (selLine "R" ∈ (flatGen [⟨"R", [⟨0, 5⟩]⟩] 100).1
        ∧ ∀ c ∈ [Cost.mk 0 5], costLine 100 c ∈ (flatGen [⟨"R", [⟨0, 5⟩]⟩] 100).1)
    ∧ ([Cost.mk 0 5].map (fun c => scaleAmount c.amount 100)
        = [Cost.mk 0 5].map Cost.amount) :=
  ⟨(claim_C10 [⟨"R", [⟨0, 5⟩]⟩] 100).1,
   (claim_C10 [⟨"R", [⟨0, 5⟩]⟩] 100).2.1 ⟨"R", [⟨0, 5⟩]⟩ (by decide),
   (claim_C10 [⟨"R", [⟨0, 5⟩]⟩] 100).2.2.2 ⟨"R", [⟨0, 5⟩]⟩ (by decide)
     (by intro c hc; rw [List.mem_singleton.mp hc]; decide)⟩

theorem claim_C10_cex :
    flatParse ["newritual \"R\"", "cost 0 0"] = [⟨"R", [⟨0, 0⟩]⟩]
    ∧ scaleAmount 0 100 = 1
    ∧ costLine 100 ⟨0, 0⟩ = "cost 0 1  # 1 Gold (was 0)"
    ∧ (1 : Nat) ≠ 0 :=
  ⟨by decide, by decide, by decide, by decide⟩

/-! ### Evaluating the matchers on emitted lines (C8) -/

theorem dropLit_self_append (l cs : List Char) : dropLit l (l ++ cs) = some cs := by
  induction l with
  | nil => rfl
  | cons c t ih => simp [dropLit, ih]

theorem dropLit_head_ne (l : Char) (ls : List Char) (c : Char) (cs : List Char)
    (h : c ≠ l) : dropLit (l :: ls) (c :: cs) = none := by
  simp [dropLit, h]

theorem spaces1_cons_space (cs : List Char) :
    spaces1 (' ' :: cs) = some (cs.dropWhile isPySpace) := by
  simp [spaces1]
  decide

theorem natDigits_head_digit (n : Nat) :
    ∃ c cs, natDigits n = c :: cs ∧ isDigitCh c = true := by
  cases e : natDigits n with
  | nil => exact absurd e (natDigits_ne_nil n)
  | cons c cs =>
    refine ⟨c, cs, rfl, ?_⟩
    apply natDigits_digits n c
    rw [e]; exact List.mem_cons_self c cs

theorem dropWhile_space_digits (n : Nat) (rest : List Char) :
    (natDigits n ++ rest).dropWhile isPySpace = natDigits n ++ rest := by
  obtain ⟨c, cs, e, hc⟩ := natDigits_head_digit n
  rw [e, List.cons_append, dropWhile_cons_neg]
  exact not_space_of_digit c hc

theorem stripComment_nil : stripComment [] = [] := rfl

theorem stripComment_hash (rest : List Char) : stripComment ('#' :: rest) = [] := by
  simp [stripComment]

theorem stripComment_cons (c : Char) (rest : List Char) (h : c ≠ '#') :
    stripComment (c :: rest) = c :: stripComment rest := by
  simp [stripComment, List.takeWhile_cons, h]

theorem stripComment_no_hash (cs : List Char) (h : '#' ∉ cs) : stripComment cs = cs := by
  induction cs with
  | nil => rfl
  | cons c t ih =>
    have hc : c ≠ '#' := fun he => h (he ▸ List.mem_cons_self c t)
    rw [stripComment_cons c t hc, ih (fun hm => h (List.mem_cons_of_mem c hm))]

theorem stripComment_digits (ds rest : List Char) (h : ∀ c ∈ ds, isDigitCh c = true) :
    stripComment (ds ++ rest) = ds ++ stripComment rest := by
  rw [stripComment, takeWhile_append_all _ ds _ ?_]
  · rfl
  · intro x hx
    simpa using digit_ne_hash x (h x hx)

theorem no_hash_stripComment (cs : List Char) : '#' ∉ stripComment cs := by
  intro h
  have := List.mem_takeWhile_imp h
  simp at this

theorem pyStripRight_last_nonspace (A : List Char) (c : Char) (hc : isPySpace c = false) :
    pyStripRight (A ++ [c]) = A ++ [c] := by
  rw [pyStripRight, List.reverse_append]
  simp only [List.reverse_cons, List.reverse_nil, List.nil_append, List.singleton_append]
  rw [dropWhile_cons_neg _ _ _ hc]
  simp

theorem pyStripRight_trailing (A : List Char) (c : Char) (sp : List Char)
    (hc : isPySpace c = false) (hsp : ∀ x ∈ sp, isPySpace x = true) :
    pyStripRight ((A ++ [c]) ++ sp) = A ++ [c] := by
  rw [pyStripRight, List.reverse_append]
  rw [dropWhile_append_all _ _ _ (fun x hx => hsp x (List.mem_reverse.mp hx))]
  rw [List.reverse_append]
  simp only [List.reverse_cons, List.reverse_nil, List.nil_append, List.singleton_append]
  rw [dropWhile_cons_neg _ _ _ hc]
  simp

theorem pyStrip_nonspace_head (c : Char) (cs : List Char) (h : isPySpace c = false) :
    pyStrip (c :: cs) = pyStripRight (c :: cs) := by
  rw [pyStrip, dropWhile_cons_neg _ _ _ h]

theorem pyStrip_subset (cs : List Char) : ∀ c ∈ pyStrip cs, c ∈ cs := by
  intro c hc
  rw [pyStrip, pyStripRight] at hc
  have h1 : c ∈ (cs.dropWhile isPySpace).reverse.dropWhile isPySpace :=
    List.mem_reverse.mp hc
  have h2 : c ∈ (cs.dropWhile isPySpace).reverse :=
    (List.dropWhile_sublist isPySpace).subset h1
  have h3 : c ∈ cs.dropWhile isPySpace := List.mem_reverse.mp h2
  exact (List.dropWhile_sublist isPySpace).subset h3

theorem natDigits_reverse_head (n : Nat) :
    ∃ c t, (natDigits n).reverse = c :: t ∧ isDigitCh c = true := by
  cases e : (natDigits n).reverse with
  | nil =>
    have : natDigits n = [] := by
      have := congrArg List.reverse e
      simpa using this
    exact absurd this (natDigits_ne_nil n)
  | cons c t =>
    refine ⟨c, t, rfl, ?_⟩
    apply natDigits_digits n
    have hm : c ∈ (natDigits n).reverse := by
      rw [e]; exact List.mem_cons_self c t
    exact List.mem_reverse.mp hm

theorem pyStripRight_append_spaces (X sp : List Char) (c : Char) (t : List Char)
    (hx : X.reverse = c :: t) (hc : isPySpace c = false)
    (hsp : ∀ x ∈ sp, isPySpace x = true) :
    pyStripRight (X ++ sp) = X := by
  rw [pyStripRight, List.reverse_append,
    dropWhile_append_all _ _ _ (fun x hx2 => hsp x (List.mem_reverse.mp hx2)),
    hx, dropWhile_cons_neg _ _ _ hc, ← hx, List.reverse_reverse]

theorem stripComment_append_hash (A B : List Char) (h : '#' ∉ A) :
    stripComment (A ++ '#' :: B) = A := by
  rw [stripComment, takeWhile_append_all _ A _ ?_]
  · simp [List.takeWhile_cons]
  · intro x hx
    have : x ≠ '#' := fun he => h (he ▸ hx)
    simpa using this

theorem costLine_data (p : Nat) (c : Cost) :
    (costLine p c).data
      = 'c' :: 'o' :: 's' :: 't' :: ' ' ::
          (natDigits c.rtype ++ ' ' ::
            (natDigits (scaleAmount c.amount p) ++ ' ' :: ' ' :: '#' ::
              (' ' :: (natDigits (scaleAmount c.amount p) ++ ' ' ::
                ((resourceName c.rtype).data ++
                  (' ' :: '(' :: 'w' :: 'a' :: 's' :: ' ' ::
                    (natDigits c.amount ++ [')']))))))) := by
  have l1 : "cost ".data = ['c', 'o', 's', 't', ' '] := rfl
  have l2 : " ".data = [' '] := rfl
  have l3 : "  # ".data = [' ', ' ', '#', ' '] := rfl
  have l4 : " (was ".data = [' ', '(', 'w', 'a', 's', ' '] := rfl
  have l5 : ")".data = [')'] := rfl
  simp [costLine, natToString, String.data_append, l1, l2, l3, l4, l5]

theorem costLine_stripped (p : Nat) (c : Cost) :
    pyStrip (stripComment (costLine p c).data)
      = 'c' :: 'o' :: 's' :: 't' :: ' ' ::
          (natDigits c.rtype ++ ' ' :: natDigits (scaleAmount c.amount p)) := by
  have e1 : stripComment (costLine p c).data
      = 'c' :: 'o' :: 's' :: 't' :: ' ' ::
          (natDigits c.rtype ++ ' ' :: (natDigits (scaleAmount c.amount p)
            ++ [' ', ' '])) := by
    rw [costLine_data,
      stripComment_cons 'c' _ (by decide), stripComment_cons 'o' _ (by decide),
      stripComment_cons 's' _ (by decide), stripComment_cons 't' _ (by decide),
      stripComment_cons ' ' _ (by decide),
      stripComment_digits _ _ (natDigits_digits c.rtype),
      stripComment_cons ' ' _ (by decide),
      stripComment_digits _ _ (natDigits_digits (scaleAmount c.amount p)),
      stripComment_cons ' ' _ (by decide), stripComment_cons ' ' _ (by decide),
      stripComment_hash]
  rw [e1, pyStrip_nonspace_head _ _ (by decide)]
  obtain ⟨cd, td, erev, hcd⟩ := natDigits_reverse_head (scaleAmount c.amount p)
  have ea : ('c' :: 'o' :: 's' :: 't' :: ' ' ::
        (natDigits c.rtype ++ ' ' :: (natDigits (scaleAmount c.amount p) ++ [' ', ' '])))
      = ((['c', 'o', 's', 't', ' '] ++ (natDigits c.rtype ++ [' ']))
          ++ natDigits (scaleAmount c.amount p)) ++ [' ', ' '] := by
    simp
  rw [ea, pyStripRight_append_spaces _ _ cd
      (td ++ (['c', 'o', 's', 't', ' '] ++ (natDigits c.rtype ++ [' '])).reverse)
      (by rw [List.reverse_append, erev, List.cons_append])
      (not_space_of_digit cd hcd) (by decide)]
  simp

theorem costMatch_costLine (p : Nat) (c : Cost) :
    costMatch (pyStrip (stripComment (costLine p c).data))
      = some (c.rtype, scaleAmount c.amount p) := by
  rw [costLine_stripped]
  have e : ('c' :: 'o' :: 's' :: 't' :: ' ' ::
        (natDigits c.rtype ++ ' ' :: natDigits (scaleAmount c.amount p)))
      = "cost".data ++ (' ' :: (natDigits c.rtype
          ++ ' ' :: natDigits (scaleAmount c.amount p))) := rfl
  rw [e]
  have h1 := dropLit_self_append "cost".data
    (' ' :: (natDigits c.rtype ++ ' ' :: natDigits (scaleAmount c.amount p)))
  have h2 := spaces1_cons_space
    (natDigits c.rtype ++ ' ' :: natDigits (scaleAmount c.amount p))
  have h3 := dropWhile_space_digits c.rtype (' ' :: natDigits (scaleAmount c.amount p))
  have h4 : digits1 (natDigits c.rtype ++ ' ' :: natDigits (scaleAmount c.amount p))
      = some (c.rtype, ' ' :: natDigits (scaleAmount c.amount p)) :=
    digits1_natDigits _ _ (by intro ch hch; cases hch; decide)
  have h5 := spaces1_cons_space (natDigits (scaleAmount c.amount p))
  have h6 : (natDigits (scaleAmount c.amount p)).dropWhile isPySpace
      = natDigits (scaleAmount c.amount p) := by
    have := dropWhile_space_digits (scaleAmount c.amount p) []
    simpa using this
  have h7 : digits1 (natDigits (scaleAmount c.amount p))
      = some (scaleAmount c.amount p, []) := by
    have := digits1_natDigits (scaleAmount c.amount p) [] (by intro ch hch; simp at hch)
    simpa using this
  simp only [costMatch, h1, h2, h3, h4, h5, h6, h7]

theorem startMatch_costLine (p : Nat) (c : Cost) :
    startMatch "selectritual" (pyStrip (stripComment (costLine p c).data)) = none := by
  rw [costLine_stripped]
  have e : "selectritual".data = 's' :: "electritual".data := rfl
  have h : dropLit "selectritual".data ('c' :: 'o' :: 's' :: 't' :: ' ' ::
      (natDigits c.rtype ++ ' ' :: natDigits (scaleAmount c.amount p))) = none := by
    rw [e]; exact dropLit_head_ne _ _ _ _ (by decide)
  simp only [startMatch, h]

theorem selLine_data (nm : String) :
    (selLine nm).data = "selectritual".data ++ ' ' :: '"' :: (nm.data ++ ['"']) := by
  have l1 : "selectritual \"".data = "selectritual".data ++ [' ', '"'] := rfl
  have l2 : "\"".data = ['"'] := rfl
  simp [selLine, String.data_append, l1, l2]

theorem selLine_no_hash (nm : String) (hh : '#' ∉ nm.data) : '#' ∉ (selLine nm).data := by
  rw [selLine_data]
  intro hmem
  rcases List.mem_append.mp hmem with h | h
  · revert h; decide
  · rcases List.mem_cons.mp h with h | h
    · exact absurd h (by decide)
    · rcases List.mem_cons.mp h with h | h
      · exact absurd h (by decide)
      · rcases List.mem_append.mp h with h | h
        · exact hh h
        · exact absurd (List.mem_singleton.mp h) (by decide)

theorem selLine_eval (nm : String) (hne : nm.data ≠ []) (hq : '"' ∉ nm.data)
    (hh : '#' ∉ nm.data) :
    startMatch "selectritual" (pyStrip (stripComment (selLine nm).data)) = some nm := by
  rw [stripComment_no_hash _ (selLine_no_hash nm hh), selLine_data]
  have e : "selectritual".data ++ ' ' :: '"' :: (nm.data ++ ['"'])
      = 's' :: ("electritual".data ++ ' ' :: '"' :: (nm.data ++ ['"'])) := rfl
  rw [e, pyStrip_nonspace_head _ _ (by decide), ← e]
  have ea : "selectritual".data ++ ' ' :: '"' :: (nm.data ++ ['"'])
      = ("selectritual".data ++ ' ' :: '"' :: nm.data) ++ ['"'] := by simp
  rw [ea, pyStripRight_last_nonspace _ _ (by decide), ← ea]
  have h1 := dropLit_self_append "selectritual".data (' ' :: '"' :: (nm.data ++ ['"']))
  have h2 := spaces1_cons_space ('"' :: (nm.data ++ ['"']))
  have h3 : ('"' :: (nm.data ++ ['"'])).dropWhile isPySpace
      = '"' :: (nm.data ++ ['"']) := dropWhile_cons_neg _ _ _ (by decide)
  have t1 : (nm.data ++ ['"']).takeWhile (fun c => c ≠ '"') = nm.data := by
    rw [takeWhile_append_all _ _ _ ?_]
    · simp [List.takeWhile_cons]
    · intro x hx
      have : x ≠ '"' := fun he => hq (he ▸ hx)
      simpa using this
  have t2 : (nm.data ++ ['"']).dropWhile (fun c => c ≠ '"') = ['"'] := by
    rw [dropWhile_append_all _ _ _ ?_]
    · simp [List.dropWhile_cons]
    · intro x hx
      have : x ≠ '"' := fun he => hq (he ▸ hx)
      simpa using this
  have h4 : matchQuoted ('"' :: (nm.data ++ ['"'])) = some nm.data := by
    simp only [matchQuoted, t1, t2]
    simp [hne]
  simp only [startMatch, h1, h2, h3, h4]
  rfl

theorem fpStep_selLine (st : FPState) (nm : String) (hne : nm.data ≠ [])
    (hq : '"' ∉ nm.data) (hh : '#' ∉ nm.data) :
    fpStep "selectritual" st (selLine nm) = ⟨fpFinalize st, some ⟨nm, []⟩⟩ := by
  simp only [fpStep, selLine_eval nm hne hq hh]

theorem fpStep_costLine (rits : List FlatRitual) (cur : FlatRitual) (p : Nat) (c : Cost) :
    fpStep "selectritual" ⟨rits, some cur⟩ (costLine p c)
      = ⟨rits, some ⟨cur.name, cur.costs ++ [⟨c.rtype, scaleAmount c.amount p⟩]⟩⟩ := by
  simp only [fpStep, startMatch_costLine, costMatch_costLine]

theorem fpStep_inert_of_empty (st : FPState) (line : String)
    (h : pyStrip (stripComment line.data) = []) :
    fpStep "selectritual" st line = st := by
  rw [fpStep, h]
  cases st.current <;> rfl

theorem fpStep_blank (st : FPState) : fpStep "selectritual" st "" = st :=
  fpStep_inert_of_empty st "" rfl

/-! ### Names produced by the parser are safely re-emittable -/

theorem dropLit_mem (l : List Char) : ∀ cs r, dropLit l cs = some r → ∀ c ∈ r, c ∈ cs := by
  induction l with
  | nil =>
    intro cs r h c hc
    cases h
    exact hc
  | cons x xs ih =>
    intro cs r h c hc
    cases cs with
    | nil => simp [dropLit] at h
    | cons y ys =>
      by_cases he : y = x
      · simp only [dropLit, he, if_true] at h
        exact List.mem_cons_of_mem y (ih ys r h c hc)
      · simp [dropLit, he] at h

theorem spaces1_mem (cs r : List Char) (h : spaces1 cs = some r) : ∀ c ∈ r, c ∈ cs := by
  cases cs with
  | nil => simp [spaces1] at h
  | cons x xs =>
    intro c hc
    by_cases hx : isPySpace x = true
    · simp only [spaces1, hx, if_true] at h
      cases h
      exact List.mem_cons_of_mem x ((List.dropWhile_sublist isPySpace).subset hc)
    · simp [spaces1, hx] at h

theorem matchQuoted_spec (cs nm : List Char) (h : matchQuoted cs = some nm) :
    nm ≠ [] ∧ '"' ∉ nm ∧ ∀ c ∈ nm, c ∈ cs := by
  cases cs with
  | nil => simp [matchQuoted] at h
  | cons x rest =>
    simp only [matchQuoted] at h
    by_cases hx : x = '"'
    · rw [if_pos hx] at h
      by_cases hh : (rest.dropWhile (fun ch => ch ≠ '"')).head? = some '"'
      · rw [if_pos hh] at h
        by_cases ht : rest.takeWhile (fun ch => ch ≠ '"') = []
        · rw [if_pos ht] at h; cases h
        · rw [if_neg ht] at h
          injection h with h
          subst h
          refine ⟨ht, ?_, ?_⟩
          · intro hq
            have := List.mem_takeWhile_imp hq
            simp at this
          · intro c hc
            exact List.mem_cons_of_mem x ((List.takeWhile_sublist _).subset hc)
      · rw [if_neg hh] at h; cases h
    · rw [if_neg hx] at h; cases h

theorem startMatch_good (kw : String) (cs : List Char) (nm : String)
    (h : startMatch kw cs = some nm) (hh : '#' ∉ cs) : goodName nm := by
  simp only [startMatch] at h
  cases h1 : dropLit kw.data cs with
  | none => simp only [h1] at h; cases h
  | some r1 =>
    simp only [h1] at h
    cases h2 : spaces1 r1 with
    | none => simp only [h2] at h; cases h
    | some r2 =>
      simp only [h2] at h
      cases h3 : matchQuoted r2 with
      | none => simp only [h3, Option.map_none] at h; cases h
      | some d =>
        obtain ⟨hne, hq, hsub⟩ := matchQuoted_spec r2 d h3
        have h' : String.mk d = nm := by simpa [h3] using h
        have hd : nm.data = d := by rw [← h']
        refine ⟨?_, ?_, ?_⟩
        · rw [hd]; exact hne
        · rw [hd]; exact hq
        · rw [hd]
          intro hmem
          exact hh (dropLit_mem kw.data cs r1 h1 '#'
            (spaces1_mem r1 r2 h2 '#' (hsub '#' hmem)))

theorem no_hash_pyStrip_stripComment (cs : List Char) :
    '#' ∉ pyStrip (stripComment cs) := by
  intro hmem
  exact no_hash_stripComment cs (pyStrip_subset (stripComment cs) '#' hmem)

theorem fpFinalize_good (st : FPState)
    (h1 : ∀ r ∈ st.rituals, goodName r.name)
    (h2 : ∀ cur, st.current = some cur → goodName cur.name) :
    ∀ r ∈ fpFinalize st, goodName r.name := by
  intro r hr
  rcases hc : st.current with _ | cur
  · simp only [fpFinalize, hc] at hr
    exact h1 r hr
  · simp only [fpFinalize, hc] at hr
    by_cases he : cur.costs = []
    · simp [he] at hr
      exact h1 r hr
    · simp [he] at hr
      rcases hr with hr | hr
      · exact h1 r hr
      · rw [hr]; exact h2 cur hc

theorem fpStep_good (kw : String) (st : FPState) (line : String)
    (h1 : ∀ r ∈ st.rituals, goodName r.name)
    (h2 : ∀ cur, st.current = some cur → goodName cur.name) :
    (∀ r ∈ (fpStep kw st line).rituals, goodName r.name)
    ∧ (∀ cur, (fpStep kw st line).current = some cur → goodName cur.name) := by
  cases hm : startMatch kw (pyStrip (stripComment line.data)) with
  | some nm =>
    simp only [fpStep, hm]
    refine ⟨fpFinalize_good st h1 h2, ?_⟩
    intro cur hcur
    injection hcur with hcur
    rw [← hcur]
    exact startMatch_good kw _ nm hm (no_hash_pyStrip_stripComment line.data)
  | none =>
    cases hc : st.current with
    | none =>
      simp only [fpStep, hm, hc]
      exact ⟨h1, fun cur hcur => by cases hcur⟩
    | some cur =>
      cases hcost : costMatch (pyStrip (stripComment line.data)) with
      | some pr =>
        simp only [fpStep, hm, hc, hcost]
        refine ⟨h1, ?_⟩
        intro cur2 hcur2
        injection hcur2 with hcur2
        rw [← hcur2]
        exact h2 cur hc
      | none =>
        simp only [fpStep, hm, hc, hcost]
        exact ⟨h1, fun cur2 hcur2 => h2 cur2 (hc ▸ hcur2)⟩

theorem fpLoop_good (kw : String) (lines : List String) :
    ∀ st : FPState,
      (∀ r ∈ st.rituals, goodName r.name) →
      (∀ cur, st.current = some cur → goodName cur.name) →
      ∀ r ∈ fpFinalize (lines.foldl (fpStep kw) st), goodName r.name := by
  induction lines with
  | nil => intro st h1 h2; exact fpFinalize_good st h1 h2
  | cons l rest ih =>
    intro st h1 h2
    rw [List.foldl_cons]
    exact ih _ (fpStep_good kw st l h1 h2).1 (fpStep_good kw st l h1 h2).2

theorem flatParse_good (ls : List String) :
    ∀ r ∈ flatParse ls, goodName r.name ∧ r.costs ≠ [] := by
  intro r hr
  constructor
  · exact fpLoop_good "newritual" ls ⟨[], none⟩ (by intro x hx; simp at hx)
      (by intro c hcur; cases hcur) r hr
  · exact fpLoop_inv "newritual" ls ⟨[], none⟩ (by intro x hx; simp at hx) r hr

/-! ### Round-trip of the flat emitter through the re-keyed parser (C8) -/

theorem flatHeader_inert (p cnt : Nat) (st : FPState) :
    (flatHeader p cnt).foldl (fpStep "selectritual") st = st := by
  have h3 : pyStrip (stripComment ("# This mod adjusts all ritual costs to "
      ++ natToString p ++ "% of their original values.").data) = [] := by
    have l : "# This mod adjusts all ritual costs to ".data
        = '#' :: " This mod adjusts all ritual costs to ".data := rfl
    have e : ("# This mod adjusts all ritual costs to " ++ natToString p
        ++ "% of their original values.").data
        = '#' :: (" This mod adjusts all ritual costs to ".data
            ++ (natDigits p ++ "% of their original values.".data)) := by
      simp [String.data_append, natToString, l]
    rw [e, stripComment_hash]
    rfl
  have h6 : pyStrip (stripComment ("# Total rituals modified: "
      ++ natToString cnt).data) = [] := by
    have l : "# Total rituals modified: ".data
        = '#' :: " Total rituals modified: ".data := rfl
    have e : ("# Total rituals modified: " ++ natToString cnt).data
        = '#' :: (" Total rituals modified: ".data ++ natDigits cnt) := by
      simp [String.data_append, natToString, l]
    rw [e, stripComment_hash]
    rfl
  rw [flatHeader]
  simp only [List.foldl_cons, List.foldl_nil]
  rw [fpStep_inert_of_empty st "# OBM Ritual Cost Modifier" (by decide),
    fpStep_inert_of_empty st "# " (by decide),
    fpStep_inert_of_empty st _ h3,
    fpStep_inert_of_empty st "# Generated from Ritual Data v5.33.c5m" (by decide),
    fpStep_inert_of_empty st "# " (by decide),
    fpStep_inert_of_empty st _ h6,
    fpStep_inert_of_empty st "# " (by decide),
    fpStep_blank st]

theorem selParse_costs (p : Nat) (cs : List Cost) :
    ∀ (rest : List String) (rits : List FlatRitual) (nm : String) (acc : List Cost),
      ((cs.map (costLine p)) ++ rest).foldl (fpStep "selectritual") ⟨rits, some ⟨nm, acc⟩⟩
        = rest.foldl (fpStep "selectritual")
            ⟨rits, some ⟨nm, acc ++ cs.map (fun c => ⟨c.rtype, scaleAmount c.amount p⟩)⟩⟩ := by
  induction cs with
  | nil => intro rest rits nm acc; simp
  | cons c cs ih =>
    intro rest rits nm acc
    rw [List.map_cons, List.cons_append, List.foldl_cons,
      fpStep_costLine rits ⟨nm, acc⟩ p c, ih]
    simp

theorem selParse_block (p : Nat) (r : FlatRitual) (rest : List String) (st : FPState)
    (hn : goodName r.name) :
    (flatBlock p r ++ rest).foldl (fpStep "selectritual") st
      = rest.foldl (fpStep "selectritual") ⟨fpFinalize st, some (scaleRitual p r)⟩ := by
  have e : flatBlock p r ++ rest
      = selLine r.name :: (r.costs.map (costLine p) ++ ("" :: rest)) := by
    simp [flatBlock]
  rw [e, List.foldl_cons, fpStep_selLine st r.name hn.1 hn.2.1 hn.2.2,
    selParse_costs p r.costs ("" :: rest) (fpFinalize st) r.name [],
    List.foldl_cons, fpStep_blank]
  rfl

theorem selParse_blocks (p : Nat) (rs : List FlatRitual) :
    ∀ st : FPState, (∀ r ∈ rs, goodName r.name ∧ r.costs ≠ []) →
      fpFinalize ((rs.foldr (fun r acc => flatBlock p r ++ acc) []).foldl
          (fpStep "selectritual") st)
        = fpFinalize st ++ rs.map (scaleRitual p) := by
  induction rs with
  | nil => intro st h; simp
  | cons r t ih =>
    intro st h
    rw [List.foldr_cons, selParse_block p r _ st (h r (List.mem_cons_self r t)).1,
      ih _ (fun x hx => h x (List.mem_cons_of_mem r hx))]
    have hne : (scaleRitual p r).costs ≠ [] := by
      simp only [scaleRitual, ne_eq, List.map_eq_nil_iff]
      exact (h r (List.mem_cons_self r t)).2
    have e : fpFinalize ⟨fpFinalize st, some (scaleRitual p r)⟩
        = fpFinalize st ++ [scaleRitual p r] := by
      simp [fpFinalize, hne]
    rw [e]
    simp

/-- C8 (amended): the emitter writes record-start lines with the
selectritual keyword, which the parser (keyed on newritual) does not
recognize, so the round trip holds for the parser re-keyed to
selectritual: re-parsing the generated output recovers exactly the
scaled rituals that the emitter wrote, for every parsed ritual list and
every percentage. -/
theorem claim_C8 (ls : List String) (p : Nat) :
    selParse (flatLines (flatParse ls) p) = (flatParse ls).map (scaleRitual p) := by
  rw [selParse, parseWith, flatLines, List.foldl_append, flatHeader_inert,
    selParse_blocks p (flatParse ls) ⟨[], none⟩ (flatParse_good ls)]
  rfl

theorem claim_C8_cex :
    flatParse ["newritual \"Test\"", "cost 0 100"] = [⟨"Test", [⟨0, 100⟩]⟩]
    ∧ costLine 50 ⟨0, 100⟩ ∈ (flatGen [⟨"Test", [⟨0, 100⟩]⟩] 50).1
    ∧ flatParse (flatLines [⟨"Test", [⟨0, 100⟩]⟩] 50) = [] :=
  ⟨by decide, by decide, by decide⟩

end OBM
